import Mathlib

/-!
A verification development for `generate_readme.py`: a shallow embedding of the
pure core of the README regeneration pipeline (embedded-list extraction, bullet
parsing, reference classification, enrichment aggregation, table serialization
and document composition), together with theorems settling the specified
properties.  External collaborators (the GitHub metadata service and the
documentation downloads) are modelled as an explicit environment of pure
functions; the tree-sitter document locator is modelled at line level,
following the node-shape example documented inside `_get_plugin_urls`.
-/

namespace GenReadme

/-! ## Python string primitives

The script manipulates Python `str` values with `split`, `strip`, `replace`,
`lower`, a bullet-point regex and substring tests.  These are modelled here on
the character list underlying a Lean `String`. -/

/-- The characters Python treats as whitespace (`str.strip`, `str.isspace`,
and the regex class in `_BULLETPOINT_EXPRESSION`). -/
def pyIsSpace (c : Char) : Bool :=
  [' ', '\t', '\n', '\r', '\x0b', '\x0c',
   '\u001c', '\u001d', '\u001e', '\u001f', '\u0085', '\u00a0',
   '\u1680', '\u2000', '\u2001', '\u2002', '\u2003', '\u2004',
   '\u2005', '\u2006', '\u2007', '\u2008', '\u2009', '\u200a',
   '\u2028', '\u2029', '\u202f', '\u205f', '\u3000'].contains c

/-- Model of Python `text.split(sep)` for a one-character separator, on the
underlying character list.  `splitChar sep l` always returns at least one
piece, and pieces never contain `sep`. -/
def splitChar (sep : Char) : List Char → List (List Char)
  | [] => [[]]
  | c :: cs =>
    match splitChar sep cs with
    | [] => [[]]
    | r :: rs => if c = sep then [] :: r :: rs else (c :: r) :: rs

/-- Model of Python `text.split("\n")`. -/
def splitLines (s : String) : List String :=
  (splitChar '\n' s.data).map String.mk

/-- Model of Python `str.strip()` on a character list. -/
def trimChars (l : List Char) : List Char :=
  ((l.dropWhile pyIsSpace).reverse.dropWhile pyIsSpace).reverse

/-- Model of Python `line.strip()`. -/
def pyStrip (s : String) : String := ⟨trimChars s.data⟩

/-- Model of Python `sep.join(pieces)`. -/
def joinSep (sep : String) : List String → String
  | [] => ""
  | [s] => s
  | s :: s' :: rest => s ++ sep ++ joinSep sep (s' :: rest)

/-- Model of Python `str.lower()` (the search terms scanned for are ASCII, so
ASCII case-folding is the relevant fragment). -/
def pyLower (s : String) : String := ⟨s.data.map Char.toLower⟩

/-- Model of Python `needle in haystack` (substring containment). -/
def containsSubstr (needle hay : String) : Bool :=
  decide (needle.data <:+: hay.data)

/-- One scan step of Python `str.replace(pat, rep)` (all non-overlapping
occurrences, left to right); `fuel` bounds the recursion and is instantiated
with the input length. -/
def replaceAux (pat rep : List Char) : Nat → List Char → List Char
  | _, [] => []
  | 0, l => l
  | fuel + 1, c :: cs =>
    if pat.isPrefixOf (c :: cs) then
      rep ++ replaceAux pat rep fuel ((c :: cs).drop pat.length)
    else
      c :: replaceAux pat rep fuel cs

/-- Model of Python `s.replace(pat, rep)` for a non-empty pattern. -/
def pyReplace (s pat rep : String) : String :=
  if pat.data = [] then s else ⟨replaceAux pat.data rep.data s.data.length s.data⟩

/-- Model of Python `str.capitalize()` (first character upper-cased, the rest
lower-cased; the category labels it is applied to are ASCII). -/
def pyCapitalize (s : String) : String :=
  match s.data with
  | [] => ""
  | c :: rest => ⟨c.toUpper :: rest.map Char.toLower⟩

/-- `s` contains no newline character. -/
def noNL (s : String) : Prop := '\n' ∉ s.data

instance (s : String) : Decidable (noNL s) := by
  unfold noNL; infer_instance

/-! ## Data model

Lean counterparts of the dataclasses and `TypedDict`s of `generate_readme.py`
(leading underscores dropped).  GitHub API answers and downloaded
documentation are supplied by an explicit `Env` of pure functions; `none`
from `Env.fetch` models an HTTP error raised by
`_get_github_repository_details`. -/

/-- `_GitHubRepositoryDetailsLicense`. -/
structure GitHubLicense where
  name : String
  url : Option String
deriving DecidableEq

/-- `_GitHubRepositoryDetails` (the fields the core pipeline reads; `owner`
stands for `owner["login"]`, and an empty `description` models a missing /
`None` description, mirroring the truthiness test in
`_get_description_summary`). -/
structure GitHubRepositoryDetails where
  default_branch : String
  description : String
  html_url : String
  license : Option GitHubLicense
  name : String
  owner : String
  pushed_at : String
  stargazers_count : Nat
deriving DecidableEq

/-- `_GitHubRepositoryRequest`. -/
structure GitHubRepositoryRequest where
  owner : String
  name : String
deriving DecidableEq

/-- `_Model` (search terms normalized to the list form produced by
`get_search_terms`; an empty list models the `None` field value). -/
structure Model where
  search_terms : List String
  name : String
  url : String
deriving DecidableEq

/-- `_Model.get_search_terms`. -/
def Model.get_search_terms (m : Model) : List String :=
  if m.search_terms = [] then [m.name] else m.search_terms

/-- `_Model.serialize_to_markdown_tag`. -/
def Model.serialize_to_markdown_tag (m : Model) : String :=
  "[#" ++ m.name ++ "](" ++ m.url ++ ")"

/-- The `_MODELS` table. -/
def MODELS : List Model :=
  [⟨["claude"], "Claude", "https://claude.ai"⟩,
   ⟨["deepseek"], "DeepSeek", "https://chat.deepseek.com"⟩,
   ⟨["ollama"], "Ollama", "https://ollama.com"⟩,
   ⟨["openai"], "OpenAI", "https://openai.com"⟩,
   ⟨["tabnine"], "TabNine", "https://www.tabnine.com"⟩,
   ⟨["codeium", "windsurf"], "Windsurf", "https://windsurf.com"⟩,
   ⟨["codium", "qodo"], "Qodo", "https://www.qodo.ai"⟩]

/-- `_GitHubRepository` (the `directory` path is I/O bookkeeping and carries
no information used by the renderer, so it is not modelled). -/
structure GitHubRepository where
  documentation : List String
  name : String
  owner : String
  url : String
deriving DecidableEq

/-- `_GitHubRow`.  `models` is kept as a list (Python uses a `set`; the
serializer sorts the rendered tags, so only the set of entries matters). -/
structure GitHubRow where
  description : Option String
  last_commit_date : String
  license : Option GitHubLicense
  models : List Model
  name : String
  star_count : Nat
  status : Option String
  url : String
deriving DecidableEq

/-- `_GitHubRow.get_repository_label`. -/
def GitHubRow.get_repository_label (r : GitHubRow) : String :=
  "[" ++ r.name ++ "](" ++ r.url ++ ")"

/-- `_UnknownRow`. -/
structure UnknownRow where
  url : String
deriving DecidableEq

/-- `_Tables`.  Python's `github` field is an insertion-ordered
`dict[str, list[_GitHubRow]]`; it is modelled as an association list in
insertion order (key-disjoint by construction in `get_github_table_rows`). -/
structure Tables where
  github : List (String × List GitHubRow)
  unknown : List UnknownRow
deriving DecidableEq

/-- `_Tables.is_empty`. -/
def Tables.is_empty (t : Tables) : Bool :=
  t.github.isEmpty && t.unknown.isEmpty

/-- The external collaborators of the run (§6 of the design): the current
date rendered by `datetime.now().strftime("%Y-%m-%d")`, the GitHub metadata
service, and the downloaded documentation pages keyed by owner and name. -/
structure Env where
  today : String
  fetch : GitHubRepositoryRequest → Option GitHubRepositoryDetails
  docs : String → String → List String

/-! ## The pipeline functions, translated from `generate_readme.py` -/

/-- `_is_github`: the three anchored `_GITHUB_PATTERNS` regexes, which are
plain prefix tests. -/
def is_github (url : String) : Bool :=
  "https://github.com/".data.isPrefixOf url.data ||
  "http://github.com/".data.isPrefixOf url.data ||
  "git@github.com:".data.isPrefixOf url.data ||
  "git://github.com/".data.isPrefixOf url.data

/-- `_DESCRIPTION_LENGTH`. -/
def DESCRIPTION_LENGTH : Nat := 80

/-- `_get_ellided_text`: `text[: max - 3] + "..."` when `len(text) > max`
(Python slicing counts code points, as does `String.data.length`). -/
def get_ellided_text (text : String) (maxLength : Nat) : String :=
  if text.data.length ≤ maxLength then text
  else ⟨text.data.take (maxLength - 3)⟩ ++ "..."

/-- `_get_description_summary` (the live code path: the AI branch is
commented out in the source). -/
def get_description_summary (details : GitHubRepositoryDetails) : Option String :=
  if details.description = "" then none
  else if details.description.data.length ≤ DESCRIPTION_LENGTH then some details.description
  else some (get_ellided_text details.description DESCRIPTION_LENGTH)

/-- `_get_last_commit_date`: `strptime("%Y-%m-%dT%H:%M:%SZ")` followed by
`strftime("%Y-%m-%d")`, i.e. the prefix of `pushed_at` before `T` for the
well-formed timestamps the GitHub API returns. -/
def get_last_commit_date (details : GitHubRepositoryDetails) : String :=
  ⟨details.pushed_at.data.takeWhile (· != 'T')⟩

/-- `_get_models`: a model is detected when some documentation page,
lower-cased, contains one of its (truthy, i.e. non-empty) search terms. -/
def get_models (documentation : List String) : List Model :=
  MODELS.filter fun m =>
    documentation.any fun page =>
      m.get_search_terms.any fun term =>
        term != "" && containsSubstr term (pyLower page)

/-- `_get_primary_category` (stubbed in the source: always
`_Category.unknown`, whose string value is `"unknown"`). -/
def get_primary_category (_documentation : List String) : String := "unknown"

/-- `_get_status` (stubbed in the source: always `None`). -/
def get_status (_documentation : List String) : Option String := none

/-- Model of the match of `_BULLETPOINT_EXPRESSION`
(`^\s*-\s*(?P<text>.+)$`) against a single line: optional leading
whitespace, a literal `-`, greedily consumed whitespace, then at least one
captured character (the regex engine backtracks into the greedy `\s*` when
everything after the dash is whitespace).  `bulletTail` handles the part
after the dash. -/
def bulletTail (rest : List Char) : Option String :=
  match rest.dropWhile pyIsSpace with
  | [] => if rest.isEmpty then none else some ⟨rest.drop (rest.length - 1)⟩
  | t => some ⟨t⟩

def bulletMatch (line : String) : Option String :=
  match line.data.dropWhile pyIsSpace with
  | [] => none
  | c :: rest => if c = '-' then bulletTail rest else none

/-- The line loop of `_get_plugin_urls`: strip each line, skip blank lines
and the fence marker, and require every other line to match the bullet
grammar; a non-matching line is the fatal `RuntimeError` (GrammarViolation). -/
def parseBullets : List String → Except String (List String)
  | [] => .ok []
  | line :: rest =>
    if pyStrip line = "" ∨ pyStrip line = "```" then parseBullets rest
    else
      match bulletMatch (pyStrip line) with
      | none =>
        .error ("Got unexpected line \"" ++ pyStrip line ++ "\", expected to parse with the bulletpoint regex.")
      | some t => (parseBullets rest).map (t :: ·)

/-- The `_get_plugins_text` traversal of `_get_plugin_urls`, modelled at line
level following the node-shape example in the source: find the first
`<details>` block whose `<summary>` text is the `All Plugins` marker, then
return the contents of the fenced block that follows (the markdown
`code_fence_content` of the next sibling).  No following fence is the fatal
`RuntimeError` of the missing sibling / fence child; no matching block is a
`None` result. -/
def locateFenced : List String → Except String (Option (List String))
  | [] => .ok none
  | [_] => .ok none
  | a :: b :: rest =>
    if a = "<details>" ∧ b = "<summary>All Plugins</summary>" then
      match rest.dropWhile (· != "```") with
      | [] => .error "Node has no next fenced sibling."
      | _ :: afterFence => .ok (some (afterFence.takeWhile (· != "```")))
    else locateFenced (b :: rest)

/-- `_get_plugin_urls`: locate the fenced list and parse it.  Python strips
the fence content, returns `None` when the stripped text is falsy, splits on
newlines and strips each line again; since the per-line processing strips
and skips blanks anyway, this equals running the line loop directly on the
fence's lines, with the all-blank case as the `None` result. -/
def get_plugin_urls (data : String) : Except String (Option (List String)) :=
  match locateFenced (splitLines data) with
  | .error e => .error e
  | .ok none => .ok none
  | .ok (some content) =>
    if content.all (fun l => pyStrip l == "") then .ok none
    else (parseBullets content).map some

/-- `_get_reader_header`: the dedented f-string template, written as the
line-by-line concatenation its bytes amount to.  Note the bullet lines are
sorted (`sorted(f"- {name}" ...)`) before being joined. -/
def get_reader_header (today : String) (plugins : List String) : String :=
  "This is a list of Neovim AI plugins." ++ "\n" ++
  ("This page is auto-generated and was last updated on \"" ++ today ++ "\"") ++ "\n" ++
  "" ++ "\n" ++
  "<details>" ++ "\n" ++
  "<summary>All Plugins</summary>" ++ "\n" ++
  "" ++ "\n" ++
  "```" ++ "\n" ++
  joinSep "\n" (List.insertionSort (· ≤ ·) (plugins.map (fun name => "- " ++ name))) ++ "\n" ++
  "```" ++ "\n" ++
  "</details>" ++ "\n"

/-- `_GitHubRepositoryRequest.from_url`: `urlparse(url).path.split("/")`,
owner and name from the last two segments.  For the plain repository URLs
the script handles (no query or fragment), the path segments are the
slash-separated segments of the URL itself, which is how it is modelled. -/
def GitHubRepositoryRequest.from_url (url : String) : GitHubRepositoryRequest :=
  let parts := splitChar '/' url.data
  match parts.reverse with
  | name :: owner :: _ => ⟨⟨owner⟩, ⟨name⟩⟩
  | [name] => ⟨"", ⟨name⟩⟩
  | [] => ⟨"", ""⟩

/-- `_download_github_files`: clone / read the repository documentation.
The on-disk cache is I/O; its net effect is the documentation pages for
`(owner, name)`, supplied by the environment. -/
def download_github_files (env : Env) (details : GitHubRepositoryDetails) : GitHubRepository :=
  { documentation := env.docs details.owner details.name
    name := details.name
    owner := details.owner
    url := details.html_url }

/-- The walrus-assignment description logic plus row construction from the
loop body of `_get_github_table_rows`. -/
def make_github_row (details : GitHubRepositoryDetails) (repository : GitHubRepository) : GitHubRow :=
  { description :=
      match get_description_summary details with
      | none => none
      | some summary =>
        if summary = "" then some summary
        else some (get_ellided_text summary DESCRIPTION_LENGTH)
    last_commit_date := get_last_commit_date details
    license := details.license
    models := get_models repository.documentation
    name := repository.name
    star_count := details.stargazers_count
    status := get_status repository.documentation
    url := repository.url }

/-- `output[category].append(row)` on an insertion-ordered
`defaultdict(list)`, as an association-list update. -/
def assocAppend (acc : List (String × List GitHubRow)) (key : String) (row : GitHubRow) :
    List (String × List GitHubRow) :=
  match acc with
  | [] => [(key, [row])]
  | (k, rows) :: rest =>
    if k = key then (k, rows ++ [row]) :: rest else (k, rows) :: assocAppend rest key row

/-- `_get_github_table_rows`. -/
def get_github_table_rows (repositories : List (GitHubRepositoryDetails × GitHubRepository)) :
    List (String × List GitHubRow) :=
  repositories.foldl
    (fun acc pair =>
      assocAppend acc (get_primary_category pair.2.documentation) (make_github_row pair.1 pair.2))
    []

/-- The main loop of `_get_table_data`.  The accumulators mirror the local
state: `unknown`, `seen`, `repositories`; `log` additionally records every
call of `_get_github_repository_details`, in order, so that theorems can
speak about how often the metadata service is hit.  Note the fetch happens
before the `seen` dedup test, exactly as in the source. -/
def get_table_data_aux (env : Env) :
    List String → List UnknownRow → List String →
    List (GitHubRepositoryDetails × GitHubRepository) → List GitHubRepositoryRequest →
    Except String
      (List UnknownRow × List (GitHubRepositoryDetails × GitHubRepository) ×
        List GitHubRepositoryRequest)
  | [], unknown, _seen, repositories, log => .ok (unknown, repositories, log)
  | url :: rest, unknown, seen, repositories, log =>
    if is_github url = false then
      get_table_data_aux env rest (unknown ++ [⟨url⟩]) seen repositories log
    else
      match env.fetch (GitHubRepositoryRequest.from_url url) with
      | none => .error "Repository could not be queried for data."
      | some details =>
        let log' := log ++ [GitHubRepositoryRequest.from_url url]
        if details.html_url ∈ seen then
          get_table_data_aux env rest unknown seen repositories log'
        else
          get_table_data_aux env rest unknown (seen ++ [details.html_url])
            (repositories ++ [(details, download_github_files env details)]) log'

/-- `_get_table_data`, paired with the fetch log. -/
def get_table_data (env : Env) (plugins : List String) :
    Except String (Tables × List GitHubRepositoryRequest) :=
  (get_table_data_aux env plugins [] [] [] []).map fun r =>
    ({ github := get_github_table_rows r.2.1, unknown := r.1 }, r.2.2)

/-- `_get_license_as_markdown`: note `str.replace` removes every occurrence
of `" License"`, and a falsy (absent or empty) URL yields plain text. -/
def get_license_as_markdown (license : GitHubLicense) : String :=
  let name := pyReplace license.name " License" ""
  match license.url with
  | none => name
  | some url => if url = "" then name else "[" ++ name ++ "](" ++ url ++ ")"

/-- The row rendering of `_serialize_github_table`'s loop body. -/
def serialize_github_row (row : GitHubRow) : String :=
  let tags := List.insertionSort (· ≤ ·) (row.models.map Model.serialize_to_markdown_tag)
  let models := match tags with
    | [] => "<No AI models were found>"
    | ts => joinSep " " ts
  let license := match row.license with
    | none => "`<No license found>`"
    | some l => get_license_as_markdown l
  let description := match row.description with
    | none => "`<No description found>`"
    | some d => if d = "" then "`<No description found>`" else d
  let parts := [row.get_repository_label, description,
    ":star2: " ++ toString row.star_count, models, row.last_commit_date, license]
  "| " ++ joinSep " | " parts ++ " |"

/-- The fixed two header lines of a serialized table. -/
def tableHeaderRows : List String :=
  ["| :ab: Name | :notebook: Description | :star2: Stars | :robot: Models | :date: Updated | :balance_scale: License |",
   "| --------- | ---------------------- | ------------- | -------------- | -------------- | ----------------------- |"]

/-- `_serialize_github_table`: `None` on an empty row set, otherwise header
lines plus the row lines sorted lexicographically by rendered text. -/
def serialize_github_table (rows : List GitHubRow) : Option String :=
  match rows with
  | [] => none
  | _ =>
    some (joinSep "\n" (tableHeaderRows ++ List.insertionSort (· ≤ ·) (rows.map serialize_github_row)))

/-- The relation `sorted(tables.github.items())` sorts by: the dict keys are
distinct, so Python's tuple comparison never reaches the row lists and the
sort is by category label. -/
def tableLe (a b : String × List GitHubRow) : Prop := a.1 ≤ b.1

instance : DecidableRel tableLe := fun a b => inferInstanceAs (Decidable (a.1 ≤ b.1))

/-- The `for name, rows in sorted(tables.github.items())` loop of
`_get_tables_as_lines`. -/
def render_tables_loop : List (String × List GitHubRow) → Except String (List String)
  | [] => .ok []
  | (name, rows) :: rest =>
    match serialize_github_table rows with
    | none => .error ("Table \"" ++ name ++ "\" could not be serialized.")
    | some table =>
      (render_tables_loop rest).map
        ((pyCapitalize name ++ "\n" ++ ⟨List.replicate name.data.length '='⟩
          ++ "\n\n" ++ table) :: ·)

/-- `_get_tables_as_lines`: render each category table, then raise the
`NotImplementedError` for the unknown-entries table whenever the unknown
list is non-empty. -/
def get_tables_as_lines (tables : Tables) : Except String (List String) :=
  match render_tables_loop (List.insertionSort tableLe tables.github) with
  | .error e => .error e
  | .ok output =>
    if tables.unknown.isEmpty then .ok output
    else .error "NotImplementedError: TODO: Finish this"

/-- The constant footer of `_generate_readme_text` (the dedented
triple-quoted string). -/
def FOOTER : String :=
  "\n\n\n## Generating This List\n```sh\nGITHUB_TOKEN=\"your API token here\" make generate\n# Or directly\nGITHUB_TOKEN=\"your API token here\" python generate_readme.md --directory /tmp/repositories\n```\n"

/-- `_generate_readme_text` on the document bytes: parse the embedded list,
sort it, fail on an empty list, enrich, render, and compose the final
document text.  Every `raise` in the Python pipeline is an `Except.error`
here. -/
def generate_readme_text (env : Env) (data : String) : Except String String :=
  match get_plugin_urls data with
  | .error e => .error e
  | .ok urls =>
    let plugins := List.insertionSort (· ≤ ·) (urls.getD [])
    if plugins.isEmpty then .error "Path has no parseable plugins list."
    else
      let header := get_reader_header env.today plugins
      match get_table_data env plugins with
      | .error e => .error e
      | .ok (table_data, _log) =>
        if table_data.is_empty then .ok (header ++ "" ++ FOOTER)
        else
          match get_tables_as_lines table_data with
          | .error e => .error e
          | .ok tables => .ok (header ++ ("\n\n" ++ joinSep "\n" tables) ++ FOOTER)

/-- `_main` on the document state: the destination document is only
overwritten once `_generate_readme_text` has composed the full text; any
raised error propagates first, leaving the document bytes unchanged. -/
def main_run (env : Env) (document : String) : String :=
  match generate_readme_text env document with
  | .ok data => data
  | .error _ => document


/-! ## Derived definitions used by the theorems -/

/-- What the line loop of `_get_plugin_urls` contributes for one line:
`none` when the line is skipped (blank or fence marker), otherwise the
regex capture. -/
def line_capture (l : String) : Option String :=
  if pyStrip l = "" ∨ pyStrip l = "```" then none else bulletMatch (pyStrip l)

/-- A well-formed reference string, as produced by the bullet parser: it is
non-empty, spans a single line, and is stripped (first and last characters
are not whitespace). -/
def validRef (s : String) : Bool :=
  match s.data with
  | [] => false
  | c :: rest =>
    !pyIsSpace c &&
    (match (c :: rest).getLast? with
     | some d => !pyIsSpace d
     | none => false) &&
    decide ('\n' ∉ c :: rest)

/-- The embedded bullet list as `_get_reader_header` renders it inside the
fenced block: one `- `-prefixed line per reference, sorted. -/
def render_embedded_list (references : List String) : String :=
  joinSep "\n" (List.insertionSort (· ≤ ·) (references.map (fun name => "- " ++ name)))

/-- Modelled from the spec: the license rendering the specification
describes, which strips `" License"` only as a trailing suffix.  Used to
compare the specified behavior with `get_license_as_markdown`. -/
def spec_strip_trailing_license_suffix (name : String) : String :=
  if (" License").data.isSuffixOf name.data then
    ⟨name.data.take (name.data.length - (" License").data.length)⟩
  else name

/-- Two optional row lists holding the same rows up to order. -/
def optPerm : Option (List GitHubRow) → Option (List GitHubRow) → Prop
  | none, none => True
  | some a, some b => a.Perm b
  | _, _ => False

instance : (o₁ o₂ : Option (List GitHubRow)) → Decidable (optPerm o₁ o₂)
  | none, none => isTrue trivial
  | some a, some b => inferInstanceAs (Decidable (a.Perm b))
  | none, some _ => isFalse fun h => h
  | some _, none => isFalse fun h => h

/-- The part of a category table entry the serialized output depends on:
its label and its rendered row lines, sorted. -/
def normTable (e : String × List GitHubRow) : String × List String :=
  (e.1, List.insertionSort (· ≤ ·) (e.2.map serialize_github_row))

/-- Key order on normalized entries. -/
def normLe (a b : String × List String) : Prop := a.1 ≤ b.1

instance : DecidableRel normLe := fun a b => inferInstanceAs (Decidable (a.1 ≤ b.1))

instance : IsTotal (String × List GitHubRow) tableLe := ⟨fun a b => le_total a.1 b.1⟩

instance : IsTrans (String × List GitHubRow) tableLe := ⟨fun _ _ _ h1 h2 => le_trans h1 h2⟩

instance : IsTotal (String × List String) normLe := ⟨fun a b => le_total a.1 b.1⟩

instance : IsTrans (String × List String) normLe := ⟨fun _ _ _ h1 h2 => le_trans h1 h2⟩

/-- `render_tables_loop` factored through the normalized entries. -/
def norm_tables_loop : List (String × List String) → Except String (List String)
  | [] => .ok []
  | (name, sortedRows) :: rest =>
    match sortedRows with
    | [] => .error ("Table \"" ++ name ++ "\" could not be serialized.")
    | _ =>
      (norm_tables_loop rest).map
        ((pyCapitalize name ++ "\n" ++ ⟨List.replicate name.data.length '='⟩
          ++ "\n\n" ++ joinSep "\n" (tableHeaderRows ++ sortedRows)) :: ·)

/-- All rows of all category tables, in table order. -/
def flatRows (github : List (String × List GitHubRow)) : List GitHubRow :=
  (github.map (fun e => e.2)).flatten

/-- The URLs of all rows of all category tables, in table order. -/
def allRowUrls (github : List (String × List GitHubRow)) : List String :=
  (flatRows github).map GitHubRow.url

deriving instance DecidableEq for Except

/-! ## Concrete instances used by the witnesses and counterexamples -/

/-- A concrete environment: one known repository `foo/bar`. -/
def envA : Env :=
  { today := "2026-10-12"
    fetch := fun r =>
      if r.owner = "foo" then
        some { default_branch := "main", description := "A tiny plugin",
               html_url := "https://github.com/foo/bar",
               license := some { name := "MIT License", url := none },
               name := "bar", owner := "foo",
               pushed_at := "2025-06-04T19:41:16Z", stargazers_count := 5 }
      else none
    docs := fun _ _ => ["This plugin uses Claude."] }

/-- A concrete document holding an embedded list with one reference. -/
def docA : String :=
  "<details>\n<summary>All Plugins</summary>\n\n```\n- https://github.com/foo/bar\n```\n</details>\n"

/-- The scenario input of the deduplication claim: two spellings of the
same repository identity. -/
def pluginsDup : List String :=
  ["https://github.com/foo/bar", "https://github.com/foo/bar.git"]

/-- Details with a 100-character description, for the truncation witness. -/
def detailsLong : GitHubRepositoryDetails :=
  { default_branch := "main", description := ⟨List.replicate 100 'a'⟩,
    html_url := "https://github.com/foo/long", license := none,
    name := "long", owner := "foo",
    pushed_at := "2025-06-04T19:41:16Z", stargazers_count := 0 }

/-- Details with a short description, for the truncation witness. -/
def detailsShort : GitHubRepositoryDetails :=
  { detailsLong with description := "A tiny plugin" }

/-- A repository value for the truncation witness. -/
def repoW : GitHubRepository :=
  { documentation := [], name := "long", owner := "foo", url := "https://github.com/foo/long" }

/-- A document whose embedded list holds a reference that is not a GitHub
URL (plus a GitHub one). -/
def docB : String :=
  "<details>\n<summary>All Plugins</summary>\n\n```\n- https://example.com/not-github\n- https://github.com/foo/bar\n```\n</details>\n"

/-- Rows for the serializer-determinism witness. -/
def rowA : GitHubRow :=
  { description := some "first", last_commit_date := "2025-01-01", license := none,
    models := [], name := "a1", star_count := 1, status := none,
    url := "https://github.com/x/a1" }

def rowB : GitHubRow :=
  { rowA with name := "b2", star_count := 2, url := "https://github.com/x/b2" }

def rowC : GitHubRow :=
  { rowA with name := "c3", star_count := 3, url := "https://github.com/x/c3" }

/-- Two table sets with the same categories and rows, inserted in different
orders. -/
def tablesX : Tables := ⟨[("auto", [rowA, rowB]), ("chat", [rowC])], []⟩

def tablesY : Tables := ⟨[("chat", [rowC]), ("auto", [rowB, rowA])], []⟩


/-! ## Lemmas -/

/-! ### Lemmas about the string primitives -/

theorem data_append (s t : String) : (s ++ t).data = s.data ++ t.data := rfl

theorem mk_data (s : String) : String.mk s.data = s := rfl

theorem mk_append (a b : List Char) : String.mk (a ++ b) = String.mk a ++ String.mk b := rfl

theorem splitChar_ne_nil (sep : Char) (l : List Char) : splitChar sep l ≠ [] := by
  cases l with
  | nil => simp [splitChar]
  | cons c cs =>
    simp only [splitChar]
    cases splitChar sep cs with
    | nil => simp
    | cons r rs => by_cases h : c = sep <;> simp [h]

theorem splitChar_of_not_mem {sep : Char} {l : List Char} (h : sep ∉ l) :
    splitChar sep l = [l] := by
  induction l with
  | nil => rfl
  | cons c cs ih =>
    have hc : c ≠ sep := fun hc => h (hc ▸ List.mem_cons_self c cs)
    have hcs : sep ∉ cs := fun hm => h (List.mem_cons_of_mem c hm)
    simp [splitChar, ih hcs, hc]

theorem splitChar_append_sep {sep : Char} {a : List Char} (b : List Char) (h : sep ∉ a) :
    splitChar sep (a ++ sep :: b) = a :: splitChar sep b := by
  induction a with
  | nil =>
    simp only [List.nil_append, splitChar]
    cases hb : splitChar sep b with
    | nil => exact absurd hb (splitChar_ne_nil sep b)
    | cons r rs => simp
  | cons c cs ih =>
    have hc : c ≠ sep := fun hc => h (hc ▸ List.mem_cons_self c cs)
    have hcs : sep ∉ cs := fun hm => h (List.mem_cons_of_mem c hm)
    simp only [List.cons_append, splitChar, List.append_eq]
    rw [ih hcs]
    simp [hc]

theorem not_mem_of_mem_splitChar {sep : Char} {l p : List Char}
    (h : p ∈ splitChar sep l) : sep ∉ p := by
  induction l generalizing p with
  | nil =>
    simp [splitChar] at h
    simp [h]
  | cons c cs ih =>
    simp only [splitChar] at h
    cases hs : splitChar sep cs with
    | nil => exact absurd hs (splitChar_ne_nil sep cs)
    | cons r rs =>
      rw [hs] at h
      have hr : r ∈ splitChar sep cs := by rw [hs]; exact List.mem_cons_self r rs
      by_cases hc : c = sep
      · simp only [hc, if_pos rfl] at h
        rcases List.mem_cons.mp h with h1 | h2
        · simp [h1]
        · exact ih (hs ▸ h2)
      · simp only [if_neg hc] at h
        rcases List.mem_cons.mp h with h1 | h2
        · subst h1
          intro hm
          rcases List.mem_cons.mp hm with h3 | h4
          · exact hc h3.symm
          · exact ih hr h4
        · exact ih (hs ▸ List.mem_cons_of_mem r h2)

theorem splitLines_append_line {a : String} (rest : String) (h : noNL a) :
    splitLines (a ++ "\n" ++ rest) = a :: splitLines rest := by
  have hdata : (a ++ "\n" ++ rest).data = a.data ++ '\n' :: rest.data := by
    simp [data_append, List.append_assoc]
  simp only [splitLines, hdata, splitChar_append_sep rest.data h, List.map_cons, mk_data]

theorem noNL_of_mem_splitLines {s l : String} (h : l ∈ splitLines s) : noNL l := by
  simp only [splitLines, List.mem_map] at h
  obtain ⟨p, hp, rfl⟩ := h
  exact not_mem_of_mem_splitChar hp

theorem splitLines_join_append {ls : List String} (rest : String)
    (h : ∀ l ∈ ls, noNL l) (hne : ls ≠ []) :
    splitLines (joinSep "\n" ls ++ "\n" ++ rest) = ls ++ splitLines rest := by
  induction ls with
  | nil => exact absurd rfl hne
  | cons x xs ih =>
    cases xs with
    | nil =>
      simp only [joinSep]
      rw [splitLines_append_line rest (h x (List.mem_cons_self x []))]
      rfl
    | cons y ys =>
      have hx : noNL x := h x (List.mem_cons_self x (y :: ys))
      have hrest : ∀ l ∈ y :: ys, noNL l := fun l hl => h l (List.mem_cons_of_mem x hl)
      have hassoc : joinSep "\n" (x :: y :: ys) ++ "\n" ++ rest
          = x ++ "\n" ++ (joinSep "\n" (y :: ys) ++ "\n" ++ rest) := by
        show String.mk _ = String.mk _
        simp [joinSep, data_append, List.append_assoc]
      rw [hassoc, splitLines_append_line _ hx, ih hrest (by simp)]
      rfl

theorem dropWhile_head_not {p : Char → Bool} {l : List Char} {c : Char} {cs : List Char}
    (h : l.dropWhile p = c :: cs) : p c = false := by
  induction l with
  | nil => simp [List.dropWhile] at h
  | cons a as ih =>
    by_cases ha : p a
    · rw [List.dropWhile_cons_of_pos ha] at h
      exact ih h
    · rw [List.dropWhile_cons_of_neg ha] at h
      cases h
      exact eq_false_of_ne_true ha

theorem trimChars_eq_self {l : List Char} (hne : l ≠ [])
    (hhead : ∀ c, l.head? = some c → pyIsSpace c = false)
    (hlast : ∀ c, l.getLast? = some c → pyIsSpace c = false) :
    trimChars l = l := by
  unfold trimChars
  have h1 : l.dropWhile pyIsSpace = l := by
    cases l with
    | nil => rfl
    | cons c cs => exact List.dropWhile_cons_of_neg (by simp [hhead c rfl])
  rw [h1]
  have h2 : l.reverse.dropWhile pyIsSpace = l.reverse := by
    cases hrev : l.reverse with
    | nil => rfl
    | cons d ds =>
      have hd : l.getLast? = some d := by
        rw [List.getLast?_eq_head?_reverse, hrev]; rfl
      exact List.dropWhile_cons_of_neg (by simp [hlast d hd])
  rw [h2, List.reverse_reverse]



/-! ## C3: no partial write -/

/-- C3.  For every run, either regeneration succeeds and the destination
document is overwritten with the fully composed text, or some stage fails
and the prior document bytes are left unchanged; there is no partial
write. -/
theorem c3_no_partial_write (env : Env) (document : String) :
    (∃ out, generate_readme_text env document = .ok out ∧ main_run env document = out) ∨
    (∃ e, generate_readme_text env document = .error e ∧ main_run env document = document) := by
  cases h : generate_readme_text env document with
  | ok out => exact Or.inl ⟨out, rfl, by simp [main_run, h]⟩
  | error e => exact Or.inr ⟨e, rfl, by simp [main_run, h]⟩

/-! ## C4: fatal grammar violations in the bullet parser -/

theorem parseBullets_error_of_bad {ls : List String}
    (h : ∃ l ∈ ls, pyStrip l ≠ "" ∧ pyStrip l ≠ "```" ∧ bulletMatch (pyStrip l) = none) :
    ∃ e, parseBullets ls = .error e := by
  induction ls with
  | nil => simp at h
  | cons line rest ih =>
    obtain ⟨l, hmem, h1, h2, h3⟩ := h
    rcases List.mem_cons.mp hmem with rfl | hmem'
    · rw [parseBullets, if_neg (by tauto), h3]
      exact ⟨_, rfl⟩
    · obtain ⟨e, he⟩ := ih ⟨l, hmem', h1, h2, h3⟩
      rw [parseBullets]
      by_cases hskip : pyStrip line = "" ∨ pyStrip line = "```"
      · rw [if_pos hskip]
        exact ⟨e, he⟩
      · rw [if_neg hskip]
        cases hm : bulletMatch (pyStrip line) with
        | none => exact ⟨_, rfl⟩
        | some t => exact ⟨e, by rw [he]; rfl⟩

theorem parseBullets_ok_of_good {ls : List String}
    (h : ∀ l ∈ ls, pyStrip l = "" ∨ pyStrip l = "```" ∨ (bulletMatch (pyStrip l)).isSome) :
    parseBullets ls = .ok (ls.filterMap line_capture) := by
  induction ls with
  | nil => rfl
  | cons line rest ih =>
    have hrest := ih fun l hl => h l (List.mem_cons_of_mem line hl)
    rw [parseBullets, List.filterMap_cons]
    by_cases hskip : pyStrip line = "" ∨ pyStrip line = "```"
    · rw [if_pos hskip, hrest, line_capture, if_pos hskip]
    · rcases h line (List.mem_cons_self line rest) with h1 | h2 | h3
      · exact absurd (Or.inl h1) hskip
      · exact absurd (Or.inr h2) hskip
      · obtain ⟨t, ht⟩ := Option.isSome_iff_exists.mp h3
        rw [if_neg hskip, ht, hrest, line_capture, if_neg hskip, ht]
        rfl

theorem main_run_error_eq {env : Env} {document : String} {e : String}
    (h : generate_readme_text env document = .error e) :
    main_run env document = document := by
  simp [main_run, h]

/-- C4.  Any non-blank, non-fence line of a fenced block that fails the
single-bullet grammar makes the bullet parser raise a fatal error (no
skipping), and a failed run never writes the document; when every line is
blank, the fence marker, or a grammar match, the parser returns the captured
reference texts in order, duplicates preserved. -/
theorem c4_grammar_violation_is_fatal (ls : List String) :
    ((∃ l ∈ ls, pyStrip l ≠ "" ∧ pyStrip l ≠ "```" ∧ bulletMatch (pyStrip l) = none) →
      ∃ e, parseBullets ls = .error e) ∧
    ((∀ l ∈ ls, pyStrip l = "" ∨ pyStrip l = "```" ∨ (bulletMatch (pyStrip l)).isSome) →
      parseBullets ls = .ok (ls.filterMap line_capture)) ∧
    (∀ (env : Env) (document e : String),
      generate_readme_text env document = .error e → main_run env document = document) :=
  ⟨fun h => parseBullets_error_of_bad h,
   fun h => parseBullets_ok_of_good h,
   fun _ _ _ h => main_run_error_eq h⟩

/-- Witness for C4 at concrete inputs: a malformed line is a fatal parse
error; an all-well-formed block parses to its captures in order; a failing
run leaves the document unchanged. -/
theorem c4_witness :
    (∃ e, parseBullets ["- ok", "oops"] = .error e) ∧
    parseBullets ["- a", "", "```", "  -   b"] = .ok ["a", "b"] ∧
    main_run envA "" = "" := by
  refine ⟨(c4_grammar_violation_is_fatal ["- ok", "oops"]).1 (by decide),
    ((c4_grammar_violation_is_fatal ["- a", "", "```", "  -   b"]).2.1 (by decide)).trans
      (by decide),
    (c4_grammar_violation_is_fatal []).2.2 envA ""
      "Path has no parseable plugins list." (by decide)⟩

/-! ## C8: description truncation -/

/-- C8.  A description longer than 80 characters renders as exactly 80
characters ending in `...`; a description of at most 80 characters renders
verbatim. -/
theorem c8_description_truncation (details : GitHubRepositoryDetails)
    (repository : GitHubRepository) (hdesc : details.description ≠ "") :
    ∃ rendered, (make_github_row details repository).description = some rendered ∧
      (DESCRIPTION_LENGTH < details.description.data.length →
        rendered.data.length = DESCRIPTION_LENGTH ∧
        ∃ u, rendered.data = u ++ ('.' :: '.' :: '.' :: [])) ∧
      (details.description.data.length ≤ DESCRIPTION_LENGTH →
        rendered = details.description) := by
  by_cases hlen : details.description.data.length ≤ DESCRIPTION_LENGTH
  · refine ⟨details.description, ?_, ?_, fun _ => rfl⟩
    · simp only [make_github_row, get_description_summary, if_neg hdesc, if_pos hlen]
      rw [get_ellided_text, if_pos hlen]
    · intro hgt
      exact absurd hlen (not_le.mpr hgt)
  · have hgt := not_le.mp hlen
    have hell : get_ellided_text details.description DESCRIPTION_LENGTH
        = String.mk (details.description.data.take (DESCRIPTION_LENGTH - 3)) ++ "..." := by
      rw [get_ellided_text, if_neg hlen]
    have hdata : (String.mk (details.description.data.take (DESCRIPTION_LENGTH - 3)) ++ "...").data
        = details.description.data.take (DESCRIPTION_LENGTH - 3) ++ ('.' :: '.' :: '.' :: []) := rfl
    have htakelen : (details.description.data.take (DESCRIPTION_LENGTH - 3)).length
        = DESCRIPTION_LENGTH - 3 := by
      rw [List.length_take]
      exact min_eq_left (by omega)
    have hne : get_ellided_text details.description DESCRIPTION_LENGTH ≠ "" := by
      rw [hell]
      intro hcontra
      have := congrArg String.data hcontra
      rw [hdata] at this
      simp at this
    have hlen80 : (get_ellided_text details.description DESCRIPTION_LENGTH).data.length
        = DESCRIPTION_LENGTH := by
      rw [hell, hdata, List.length_append, htakelen]
      rfl
    refine ⟨get_ellided_text details.description DESCRIPTION_LENGTH, ?_, ?_, ?_⟩
    · simp only [make_github_row, get_description_summary, if_neg hdesc, if_neg hlen]
      rw [if_neg hne, get_ellided_text, if_pos (le_of_eq hlen80)]
    · intro _
      exact ⟨hlen80, details.description.data.take (DESCRIPTION_LENGTH - 3), by rw [hell, hdata]⟩
    · intro hle
      exact absurd hle hlen
/-- Witness for C8: the 100-character description renders truncated, the
short one verbatim. -/
theorem c8_witness :
    (∃ rendered, (make_github_row detailsLong repoW).description = some rendered ∧
      (DESCRIPTION_LENGTH < detailsLong.description.data.length →
        rendered.data.length = DESCRIPTION_LENGTH ∧
        ∃ u, rendered.data = u ++ ('.' :: '.' :: '.' :: [])) ∧
      (detailsLong.description.data.length ≤ DESCRIPTION_LENGTH →
        rendered = detailsLong.description)) ∧
    (∃ rendered, (make_github_row detailsShort repoW).description = some rendered ∧
      (DESCRIPTION_LENGTH < detailsShort.description.data.length →
        rendered.data.length = DESCRIPTION_LENGTH ∧
        ∃ u, rendered.data = u ++ ('.' :: '.' :: '.' :: [])) ∧
      (detailsShort.description.data.length ≤ DESCRIPTION_LENGTH →
        rendered = detailsShort.description)) :=
  ⟨c8_description_truncation detailsLong repoW (by decide),
   c8_description_truncation detailsShort repoW (by decide)⟩

/-! ## C9: license rendering (corrected) -/

/-- C9 counterexample.  The claim says the rendered license name is the
original with a trailing `" License"` suffix stripped; but `str.replace`
removes every occurrence, so `"Apache License 2.0"` (no trailing suffix)
renders as `"Apache 2.0"` rather than unchanged. -/
theorem c9_counterexample :
    get_license_as_markdown ⟨"Apache License 2.0", none⟩ = "Apache 2.0" ∧
    spec_strip_trailing_license_suffix "Apache License 2.0" = "Apache License 2.0" ∧
    get_license_as_markdown ⟨"Apache License 2.0", none⟩ ≠
      spec_strip_trailing_license_suffix "Apache License 2.0" := by
  refine ⟨by decide, by decide, by decide⟩

/-- C9 amended.  The rendered license name is the original name with every
occurrence of the substring `" License"` removed (in particular
`"MIT License"` renders as `"MIT"`); a license without a URL renders as that
plain text with no link markup, and one with a URL renders as a markdown
link around it. -/
theorem c9_license_rendering (license : GitHubLicense) :
    (license.url = none →
      get_license_as_markdown license = pyReplace license.name " License" "") ∧
    (∀ u, license.url = some u → u ≠ "" →
      get_license_as_markdown license
        = "[" ++ pyReplace license.name " License" "" ++ "](" ++ u ++ ")") ∧
    get_license_as_markdown ⟨"MIT License", none⟩ = "MIT" := by
  refine ⟨fun h => ?_, fun u hu hne => ?_, by decide⟩
  · simp [get_license_as_markdown, h]
  · simp [get_license_as_markdown, hu, hne]

/-- Witness for C9 at concrete licenses with and without a URL. -/
theorem c9_witness :
    get_license_as_markdown ⟨"MIT License", none⟩ = pyReplace "MIT License" " License" "" ∧
    get_license_as_markdown ⟨"MIT License", some "https://mit-license.org"⟩
      = "[" ++ pyReplace "MIT License" " License" "" ++ "](" ++ "https://mit-license.org" ++ ")" :=
  ⟨(c9_license_rendering ⟨"MIT License", none⟩).1 rfl,
   (c9_license_rendering ⟨"MIT License", some "https://mit-license.org"⟩).2.1
     "https://mit-license.org" rfl (by decide)⟩


/-! ## C2: rendering and reparsing the embedded list -/

theorem validRef_spec {n : String} (h : validRef n = true) :
    n.data ≠ [] ∧
    (∀ c, n.data.head? = some c → pyIsSpace c = false) ∧
    (∀ d, n.data.getLast? = some d → pyIsSpace d = false) ∧
    '\n' ∉ n.data := by
  unfold validRef at h
  cases hd : n.data with
  | nil => rw [hd] at h; simp at h
  | cons c rest =>
    rw [hd] at h
    simp only [Bool.and_eq_true, Bool.not_eq_true', decide_eq_true_eq] at h
    obtain ⟨⟨h1, h2⟩, h3⟩ := h
    refine ⟨by simp, ?_, ?_, h3⟩
    · intro c' hc'
      simp only [List.head?_cons, Option.some.injEq] at hc'
      rw [← hc']
      exact h1
    · intro d hd'
      cases hl : (c :: rest).getLast? with
      | none => simp [hl] at hd'
      | some d' =>
        rw [hl] at h2 hd'
        simp only [Bool.not_eq_true'] at h2
        injection hd' with hd''
        rw [← hd'']
        exact h2

theorem pyStrip_bullet {n : String} (h : validRef n = true) :
    pyStrip ("- " ++ n) = "- " ++ n := by
  obtain ⟨hne, _hhead, hlast, _hnl⟩ := validRef_spec h
  have hlast2 : ∀ c, ('-' :: ' ' :: n.data).getLast? = some c → pyIsSpace c = false := by
    intro c hc
    have heq : ('-' :: ' ' :: n.data).getLast? = n.data.getLast? := by
      have h2 : '-' :: ' ' :: n.data = ['-', ' '] ++ n.data := rfl
      rw [h2, List.getLast?_append_of_ne_nil _ hne]
    rw [heq] at hc
    exact hlast c hc
  have hhead2 : ∀ c, ('-' :: ' ' :: n.data).head? = some c → pyIsSpace c = false := by
    intro c hc
    simp only [List.head?_cons, Option.some.injEq] at hc
    rw [← hc]
    decide
  show String.mk (trimChars ("- " ++ n).data) = "- " ++ n
  have hdata : ("- " ++ n).data = '-' :: ' ' :: n.data := rfl
  rw [hdata, trimChars_eq_self (by simp) hhead2 hlast2]
  rfl

theorem bulletMatch_bullet {n : String} (h : validRef n = true) :
    bulletMatch ("- " ++ n) = some n := by
  obtain ⟨hne, hhead, _hlast, _hnl⟩ := validRef_spec h
  have hdw : (' ' :: n.data).dropWhile pyIsSpace = n.data := by
    rw [List.dropWhile_cons_of_pos (by decide)]
    cases hcase : n.data with
    | nil => exact absurd hcase hne
    | cons c cs =>
      rw [List.dropWhile_cons_of_neg]
      simp [hhead c (by rw [hcase]; rfl)]
  have hstep : bulletMatch ("- " ++ n) = bulletTail (' ' :: n.data) := by
    unfold bulletMatch
    have hdata : ("- " ++ n).data = '-' :: ' ' :: n.data := rfl
    rw [hdata, List.dropWhile_cons_of_neg (by decide)]
    rfl
  rw [hstep]
  unfold bulletTail
  rw [hdw]
  cases hcase : n.data with
  | nil => exact absurd hcase hne
  | cons c cs => simp [← hcase, mk_data]

theorem bullet_ne_empty (n : String) : ("- " ++ n : String) ≠ "" := by
  intro hcontra
  have := congrArg String.data hcontra
  simp [data_append] at this

theorem bullet_ne_fence (n : String) : ("- " ++ n : String) ≠ "```" := by
  intro hcontra
  have h := congrArg String.data hcontra
  have h2 : ('-' :: ' ' :: n.data) = '`' :: '`' :: '`' :: [] := h
  simp at h2

theorem bullet_noNL {n : String} (h : validRef n = true) : noNL ("- " ++ n) := by
  obtain ⟨_, _, _, hnl⟩ := validRef_spec h
  show '\n' ∉ ("- " ++ n).data
  have hdata : ("- " ++ n).data = '-' :: ' ' :: n.data := rfl
  rw [hdata]
  intro hmem
  rcases List.mem_cons.mp hmem with h1 | h2
  · exact absurd h1.symm (by decide)
  · rcases List.mem_cons.mp h2 with h3 | h4
    · exact absurd h3.symm (by decide)
    · exact hnl h4

theorem splitLines_joinSep {ls : List String} (h : ∀ l ∈ ls, noNL l) (hne : ls ≠ []) :
    splitLines (joinSep "\n" ls) = ls := by
  induction ls with
  | nil => exact absurd rfl hne
  | cons x xs ih =>
    cases xs with
    | nil =>
      show (splitChar '\n' x.data).map String.mk = [x]
      rw [splitChar_of_not_mem (h x (List.mem_cons_self x []))]
      simp [mk_data]
    | cons y ys =>
      have hx : noNL x := h x (List.mem_cons_self x (y :: ys))
      have hrest : ∀ l ∈ y :: ys, noNL l := fun l hl => h l (List.mem_cons_of_mem x hl)
      have hj : joinSep "\n" (x :: y :: ys) = x ++ "\n" ++ joinSep "\n" (y :: ys) := by
        show String.mk _ = String.mk _
        simp [joinSep, data_append, List.append_assoc]
      rw [hj, splitLines_append_line _ hx, ih hrest (by simp)]

theorem parseBullets_bullet_lines {ls : List String}
    (h : ∀ l ∈ ls, ∃ n, validRef n = true ∧ l = "- " ++ n) :
    parseBullets ls = .ok (ls.map (fun l => String.mk (l.data.drop 2))) := by
  induction ls with
  | nil => rfl
  | cons line rest ih =>
    obtain ⟨n, hn, rfl⟩ := h _ (List.mem_cons_self line rest)
    have hrest := ih fun l hl => h l (List.mem_cons_of_mem _ hl)
    have hskip : ¬(pyStrip ("- " ++ n) = "" ∨ pyStrip ("- " ++ n) = "```") := by
      rw [pyStrip_bullet hn]
      push_neg
      exact ⟨bullet_ne_empty n, bullet_ne_fence n⟩
    rw [parseBullets, if_neg hskip, pyStrip_bullet hn, bulletMatch_bullet hn, hrest]
    have hcap : String.mk (("- " ++ n).data.drop 2) = n := by
      have hd : ("- " ++ n).data = '-' :: ' ' :: n.data := rfl
      rw [hd]
      simp [mk_data]
    simp [hcap, Except.map]

/-- C2.  Rendering a list of references as the embedded bullet list and
parsing the rendered block back recovers, as a set, exactly the distinct
entries of the list (indeed the parse yields a permutation of the input, so
deduplication is the only possible set-level change and only the order
moves). -/
theorem c2_render_parse_round_trip (L : List String) (h : ∀ s ∈ L, validRef s = true) :
    ∃ out, parseBullets (splitLines (render_embedded_list L)) = .ok out ∧
      out.toFinset = L.toFinset ∧ out.Perm L := by
  cases hL : L with
  | nil => exact ⟨[], by decide, by simp⟩
  | cons x xs =>
    rw [← hL]
    have hLne : L ≠ [] := by rw [hL]; simp
    set bullets := List.insertionSort (· ≤ ·) (L.map (fun name => "- " ++ name)) with hbullets
    have hperm : bullets.Perm (L.map (fun name => "- " ++ name)) :=
      List.perm_insertionSort _ _
    have hmem : ∀ l ∈ bullets, ∃ n, validRef n = true ∧ l = "- " ++ n := by
      intro l hl
      have : l ∈ L.map (fun name => "- " ++ name) := hperm.mem_iff.mp hl
      obtain ⟨n, hn, rfl⟩ := List.mem_map.mp this
      exact ⟨n, h n hn, rfl⟩
    have hnoNL : ∀ l ∈ bullets, noNL l := by
      intro l hl
      obtain ⟨n, hn, rfl⟩ := hmem l hl
      exact bullet_noNL hn
    have hbne : bullets ≠ [] := by
      intro hcontra
      have := hperm.length_eq
      rw [hcontra] at this
      simp [hL] at this
    rw [render_embedded_list, ← hbullets, splitLines_joinSep hnoNL hbne,
      parseBullets_bullet_lines hmem]
    refine ⟨_, rfl, ?_, ?_⟩
    · have hpermOut : (bullets.map (fun l => String.mk (l.data.drop 2))).Perm L := by
        have h1 := hperm.map (fun l => String.mk (l.data.drop 2))
        rw [List.map_map] at h1
        have h2 : L.map ((fun l => String.mk (l.data.drop 2)) ∘ (fun name => "- " ++ name)) = L := by
          apply List.map_congr_left ?_ |>.trans (List.map_id L)
          intro a _
          rfl
        rw [h2] at h1
        exact h1
      exact List.toFinset_eq_of_perm _ _ hpermOut
    · have h1 := hperm.map (fun l => String.mk (l.data.drop 2))
      rw [List.map_map] at h1
      have h2 : L.map ((fun l => String.mk (l.data.drop 2)) ∘ (fun name => "- " ++ name)) = L := by
        apply List.map_congr_left ?_ |>.trans (List.map_id L)
        intro a _
        rfl
      rw [h2] at h1
      exact h1

/-- Witness for C2 at a concrete list with a duplicate entry. -/
theorem c2_witness :
    ∃ out,
      parseBullets (splitLines
        (render_embedded_list ["https://github.com/foo/bar", "b", "a", "a"])) = .ok out ∧
      out.toFinset = (["https://github.com/foo/bar", "b", "a", "a"] : List String).toFinset ∧
      out.Perm ["https://github.com/foo/bar", "b", "a", "a"] :=
  c2_render_parse_round_trip ["https://github.com/foo/bar", "b", "a", "a"] (by decide)


/-! ## The `_get_table_data` loop: unknown entries, dedup, fetch counting -/

theorem aux_unknown_sub {env : Env} :
    ∀ {plugins : List String} {unknown : List UnknownRow} {seen : List String}
      {repos : List (GitHubRepositoryDetails × GitHubRepository)}
      {log : List GitHubRepositoryRequest} {out},
      get_table_data_aux env plugins unknown seen repos log = .ok out →
      ∀ x ∈ unknown, x ∈ out.1 := by
  intro plugins
  induction plugins with
  | nil =>
    intro unknown seen repos log out h x hx
    cases h
    exact hx
  | cons url rest ih =>
    intro unknown seen repos log out h x hx
    rw [get_table_data_aux] at h
    by_cases hg : is_github url = false
    · rw [if_pos hg] at h
      exact ih h x (List.mem_append_left _ hx)
    · rw [if_neg hg] at h
      cases hf : env.fetch (GitHubRepositoryRequest.from_url url) with
      | none => simp [hf] at h
      | some details =>
        simp only [hf] at h
        by_cases hseen : details.html_url ∈ seen
        · rw [if_pos hseen] at h
          exact ih h x hx
        · rw [if_neg hseen] at h
          exact ih h x hx

theorem aux_unknown_mem {env : Env} :
    ∀ {plugins : List String} {unknown : List UnknownRow} {seen : List String}
      {repos : List (GitHubRepositoryDetails × GitHubRepository)}
      {log : List GitHubRepositoryRequest} {out},
      get_table_data_aux env plugins unknown seen repos log = .ok out →
      ∀ url ∈ plugins, is_github url = false → UnknownRow.mk url ∈ out.1 := by
  intro plugins
  induction plugins with
  | nil =>
    intro unknown seen repos log out h url hurl
    simp at hurl
  | cons u rest ih =>
    intro unknown seen repos log out h url hurl hng
    rw [get_table_data_aux] at h
    rcases List.mem_cons.mp hurl with rfl | hmem
    · rw [if_pos hng] at h
      exact aux_unknown_sub h _ (List.mem_append_right _ (List.mem_cons_self _ []))
    · by_cases hg : is_github u = false
      · rw [if_pos hg] at h
        exact ih h url hmem hng
      · rw [if_neg hg] at h
        cases hf : env.fetch (GitHubRepositoryRequest.from_url u) with
        | none => simp [hf] at h
        | some details =>
          simp only [hf] at h
          by_cases hseen : details.html_url ∈ seen
          · rw [if_pos hseen] at h
            exact ih h url hmem hng
          · rw [if_neg hseen] at h
            exact ih h url hmem hng

theorem aux_repos_shape {env : Env} :
    ∀ {plugins : List String} {unknown : List UnknownRow} {seen : List String}
      {repos : List (GitHubRepositoryDetails × GitHubRepository)}
      {log : List GitHubRepositoryRequest} {out},
      get_table_data_aux env plugins unknown seen repos log = .ok out →
      ∀ p ∈ out.2.1, p ∈ repos ∨
        ∃ req details, env.fetch req = some details ∧
          p = (details, download_github_files env details) := by
  intro plugins
  induction plugins with
  | nil =>
    intro unknown seen repos log out h p hp
    cases h
    exact Or.inl hp
  | cons url rest ih =>
    intro unknown seen repos log out h p hp
    rw [get_table_data_aux] at h
    by_cases hg : is_github url = false
    · rw [if_pos hg] at h
      exact ih h p hp
    · rw [if_neg hg] at h
      cases hf : env.fetch (GitHubRepositoryRequest.from_url url) with
      | none => simp [hf] at h
      | some details =>
        simp only [hf] at h
        by_cases hseen : details.html_url ∈ seen
        · rw [if_pos hseen] at h
          exact ih h p hp
        · rw [if_neg hseen] at h
          rcases ih h p hp with hin | hnew
          · rcases List.mem_append.mp hin with h1 | h2
            · exact Or.inl h1
            · rcases List.mem_cons.mp h2 with rfl | h3
              · exact Or.inr ⟨GitHubRepositoryRequest.from_url url, details, hf, rfl⟩
              · simp at h3
          · exact Or.inr hnew

theorem aux_log_length {env : Env} :
    ∀ {plugins : List String} {unknown : List UnknownRow} {seen : List String}
      {repos : List (GitHubRepositoryDetails × GitHubRepository)}
      {log : List GitHubRepositoryRequest} {out},
      get_table_data_aux env plugins unknown seen repos log = .ok out →
      out.2.2.length = log.length + (plugins.filter (fun u => is_github u)).length := by
  intro plugins
  induction plugins with
  | nil =>
    intro unknown seen repos log out h
    cases h
    simp
  | cons url rest ih =>
    intro unknown seen repos log out h
    rw [get_table_data_aux] at h
    by_cases hg : is_github url = false
    · rw [if_pos hg] at h
      rw [List.filter_cons_of_neg (by simp [hg])]
      exact ih h
    · rw [if_neg hg] at h
      have hg' : is_github url = true := by
        cases hval : is_github url with
        | false => exact absurd hval hg
        | true => rfl
      cases hf : env.fetch (GitHubRepositoryRequest.from_url url) with
      | none => simp [hf] at h
      | some details =>
        simp only [hf] at h
        rw [List.filter_cons_of_pos (by simp [hg'])]
        by_cases hseen : details.html_url ∈ seen
        · rw [if_pos hseen] at h
          rw [ih h]
          simp
          omega
        · rw [if_neg hseen] at h
          rw [ih h]
          simp
          omega

theorem aux_repos_nodup {env : Env} :
    ∀ {plugins : List String} {unknown : List UnknownRow} {seen : List String}
      {repos : List (GitHubRepositoryDetails × GitHubRepository)}
      {log : List GitHubRepositoryRequest} {out},
      get_table_data_aux env plugins unknown seen repos log = .ok out →
      seen = repos.map (fun p => p.1.html_url) → seen.Nodup →
      (out.2.1.map (fun p => p.1.html_url)).Nodup := by
  intro plugins
  induction plugins with
  | nil =>
    intro unknown seen repos log out h hseen hnd
    cases h
    rw [← hseen]
    exact hnd
  | cons url rest ih =>
    intro unknown seen repos log out h hseen hnd
    rw [get_table_data_aux] at h
    by_cases hg : is_github url = false
    · rw [if_pos hg] at h
      exact ih h hseen hnd
    · rw [if_neg hg] at h
      cases hf : env.fetch (GitHubRepositoryRequest.from_url url) with
      | none => simp [hf] at h
      | some details =>
        simp only [hf] at h
        by_cases hmem : details.html_url ∈ seen
        · rw [if_pos hmem] at h
          exact ih h hseen hnd
        · rw [if_neg hmem] at h
          refine ih h ?_ ?_
          · rw [hseen]
            simp [download_github_files]
          · rw [List.nodup_append]
            refine ⟨hnd, List.nodup_singleton _, ?_⟩
            intro a ha hb
            simp at hb
            rw [hb] at ha
            exact hmem ha

theorem flatRows_assocAppend (acc : List (String × List GitHubRow)) (key : String)
    (row : GitHubRow) :
    (flatRows (assocAppend acc key row)).Perm (flatRows acc ++ [row]) := by
  induction acc with
  | nil => simp [flatRows, assocAppend]
  | cons e rest ih =>
    obtain ⟨k, rows⟩ := e
    by_cases hk : k = key
    · rw [assocAppend, if_pos hk]
      show ((rows ++ [row]) ++ flatRows rest).Perm ((rows ++ flatRows rest) ++ [row])
      rw [List.append_assoc, List.append_assoc]
      exact List.Perm.append_left rows (List.perm_append_comm)
    · rw [assocAppend, if_neg hk]
      show (rows ++ flatRows (assocAppend rest key row)).Perm ((rows ++ flatRows rest) ++ [row])
      rw [List.append_assoc]
      exact List.Perm.append_left rows ih

theorem flatRows_foldl (repos : List (GitHubRepositoryDetails × GitHubRepository)) :
    ∀ acc : List (String × List GitHubRow),
      (flatRows (repos.foldl
        (fun acc pair =>
          assocAppend acc (get_primary_category pair.2.documentation)
            (make_github_row pair.1 pair.2)) acc)).Perm
        (flatRows acc ++ repos.map (fun p => make_github_row p.1 p.2)) := by
  induction repos with
  | nil => intro acc; simp
  | cons p ps ih =>
    intro acc
    rw [List.foldl_cons, List.map_cons]
    refine (ih _).trans ?_
    have h1 := flatRows_assocAppend acc (get_primary_category p.2.documentation)
      (make_github_row p.1 p.2)
    refine (h1.append_right _).trans ?_
    rw [List.append_assoc]
    exact List.Perm.append_left _ (by simp)

theorem flatRows_get_github_table_rows
    (repos : List (GitHubRepositoryDetails × GitHubRepository)) :
    (flatRows (get_github_table_rows repos)).Perm
      (repos.map (fun p => make_github_row p.1 p.2)) := by
  have h := flatRows_foldl repos []
  simpa [flatRows, get_github_table_rows] using h

theorem get_table_data_inv {env : Env} {plugins : List String} {t : Tables}
    {log : List GitHubRepositoryRequest}
    (h : get_table_data env plugins = .ok (t, log)) :
    ∃ unknown repos,
      get_table_data_aux env plugins [] [] [] [] = .ok (unknown, repos, log) ∧
      t = { github := get_github_table_rows repos, unknown := unknown } := by
  unfold get_table_data at h
  cases haux : get_table_data_aux env plugins [] [] [] [] with
  | error e =>
    rw [haux] at h
    exact absurd h (by simp [Except.map])
  | ok r =>
    obtain ⟨u, rp, lg⟩ := r
    rw [haux] at h
    simp only [Except.map, Except.ok.injEq, Prod.mk.injEq] at h
    obtain ⟨ht, hl⟩ := h
    exact ⟨u, rp, by rw [hl], ht.symm⟩

theorem row_of_mem_tables {repos : List (GitHubRepositoryDetails × GitHubRepository)}
    {e : String × List GitHubRow} {row : GitHubRow}
    (he : e ∈ get_github_table_rows repos) (hrow : row ∈ e.2) :
    ∃ p ∈ repos, row = make_github_row p.1 p.2 := by
  have hflat : row ∈ flatRows (get_github_table_rows repos) := by
    unfold flatRows
    exact List.mem_flatten.mpr ⟨e.2, List.mem_map.mpr ⟨e, he, rfl⟩, hrow⟩
  have := (flatRows_get_github_table_rows repos).mem_iff.mp hflat
  obtain ⟨p, hp, heq⟩ := List.mem_map.mp this
  exact ⟨p, hp, heq.symm⟩

/-! ## C6: non-GitHub references go only to the unknown list -/

/-- C6.  A reference not matching any recognized GitHub URL pattern is
placed in the unknown list of the produced `Tables` and, provided the
metadata service returns GitHub `html_url`s (as the GitHub API does), it
never appears as the URL of a row under any category of the github
tables. -/
theorem c6_non_github_only_unknown (env : Env) (plugins : List String) (t : Tables)
    (log : List GitHubRepositoryRequest) (url : String)
    (hok : get_table_data env plugins = .ok (t, log))
    (hmem : url ∈ plugins) (hng : is_github url = false)
    (hgood : ∀ r d, env.fetch r = some d → is_github d.html_url = true) :
    UnknownRow.mk url ∈ t.unknown ∧
    ∀ e ∈ t.github, ∀ row ∈ e.2, row.url ≠ url := by
  obtain ⟨unknown, repos, haux, ht⟩ := get_table_data_inv hok
  constructor
  · rw [ht]
    exact aux_unknown_mem haux url hmem hng
  · intro e he row hrow heq
    rw [ht] at he
    obtain ⟨p, hp, hrowp⟩ := row_of_mem_tables he hrow
    rcases aux_repos_shape haux p hp with hin | ⟨req, details, hf, hpd⟩
    · simp at hin
    · have hurl : row.url = details.html_url := by
        rw [hrowp, hpd]
        rfl
      have := hgood req details hf
      rw [← hurl, heq, hng] at this
      cases this

/-- Witness for C6: a concrete run whose input list holds a non-GitHub
reference. -/
theorem c6_witness :
    ∃ t log,
      get_table_data envA ["https://example.com/not-github", "https://github.com/foo/bar"]
        = .ok (t, log) ∧
      UnknownRow.mk "https://example.com/not-github" ∈ t.unknown ∧
      ∀ e ∈ t.github, ∀ row ∈ e.2, row.url ≠ "https://example.com/not-github" := by
  have hgood : ∀ r d, envA.fetch r = some d → is_github d.html_url = true := by
    intro r d h
    simp only [envA] at h
    split at h
    · cases h
      decide
    · cases h
  cases hres : get_table_data envA ["https://example.com/not-github", "https://github.com/foo/bar"] with
  | error e =>
    have hsome : (get_table_data envA
        ["https://example.com/not-github", "https://github.com/foo/bar"]).isOk = true := by decide
    rw [hres] at hsome
    cases hsome
  | ok r =>
    obtain ⟨t, log⟩ := r
    have hc := c6_non_github_only_unknown envA _ t log "https://example.com/not-github"
      hres (by decide) (by decide) hgood
    exact ⟨t, log, rfl, hc.1, hc.2⟩

/-! ## C5: dedup by canonical identity (corrected: fetch count) -/

/-- C5 counterexample.  On the two-spelling input list the metadata fetch is
performed twice (once per GitHub reference occurrence), not once per
identity as claimed; only the download and the row are deduplicated. -/
theorem c5_counterexample :
    (get_table_data envA pluginsDup).map
      (fun r => ((allRowUrls r.1.github).length, r.2.length)) = .ok (1, 2) ∧
    (2 : Nat) ≠ 1 := by
  refine ⟨by decide, by decide⟩

/-- C5 amended.  On every successful run the output contains at most one row
per repository identity (the row URLs are pairwise distinct — for the
two-spelling scenario, exactly one row), while the external metadata fetch
is performed once per GitHub-matching reference occurrence of the input
list, not once per identity. -/
theorem c5_dedup_one_row_per_identity (env : Env) (plugins : List String) (t : Tables)
    (log : List GitHubRepositoryRequest)
    (hok : get_table_data env plugins = .ok (t, log)) :
    (allRowUrls t.github).Nodup ∧
    log.length = (plugins.filter (fun u => is_github u)).length := by
  obtain ⟨unknown, repos, haux, ht⟩ := get_table_data_inv hok
  constructor
  · have hnd : (repos.map (fun p => p.1.html_url)).Nodup :=
      aux_repos_nodup haux (by simp) List.nodup_nil
    have hperm : (allRowUrls t.github).Perm (repos.map (fun p => p.1.html_url)) := by
      rw [ht]
      unfold allRowUrls
      have h1 := (flatRows_get_github_table_rows repos).map GitHubRow.url
      refine h1.trans ?_
      rw [List.map_map]
      have : ∀ p ∈ repos, (GitHubRow.url ∘ fun p => make_github_row p.1 p.2) p
          = p.1.html_url := by
        intro p hp
        rcases aux_repos_shape haux p hp with hin | ⟨req, details, _hf, hpd⟩
        · simp at hin
        · rw [hpd]
          rfl
      rw [List.map_congr_left this]
    exact hperm.symm.nodup hnd
  · have := aux_log_length haux
    simpa using this

/-- Witness for C5's amended theorem on the two-spelling scenario input. -/
theorem c5_witness :
    ∃ t log, get_table_data envA pluginsDup = .ok (t, log) ∧
      (allRowUrls t.github).Nodup ∧
      log.length = (pluginsDup.filter (fun u => is_github u)).length := by
  cases hres : get_table_data envA pluginsDup with
  | error e =>
    have hsome : (get_table_data envA pluginsDup).isOk = true := by decide
    rw [hres] at hsome
    cases hsome
  | ok r =>
    obtain ⟨t, log⟩ := r
    have hc := c5_dedup_one_row_per_identity envA pluginsDup t log hres
    exact ⟨t, log, rfl, hc.1, hc.2⟩

/-! ## C7: unknown entries make serialization raise, aborting the run -/

theorem get_tables_as_lines_error_of_unknown {tables : Tables}
    (h : tables.unknown ≠ []) : ∃ e, get_tables_as_lines tables = .error e := by
  rw [get_tables_as_lines]
  cases render_tables_loop (List.insertionSort tableLe tables.github) with
  | error e => exact ⟨e, rfl⟩
  | ok output =>
    have : tables.unknown.isEmpty = false := by
      cases hc : tables.unknown with
      | nil => exact absurd hc h
      | cons x xs => rfl
    rw [this]
    exact ⟨_, rfl⟩

/-- C7.  Serializing a `Tables` whose unknown list is non-empty raises the
`NotImplementedError` of the unimplemented unknown-entries table; hence a
run whose parsed reference list holds a reference that is not a recognized
GitHub URL aborts with an error and never writes the document — unknown
entries are never rendered into any output. -/
theorem c7_unknown_entries_abort_run :
    (∀ tables : Tables, tables.unknown ≠ [] →
      ∃ e, get_tables_as_lines tables = .error e) ∧
    ∀ (env : Env) (doc : String) (urls : Option (List String)) (url : String),
      get_plugin_urls doc = .ok urls → url ∈ urls.getD [] → is_github url = false →
      (∃ e, generate_readme_text env doc = .error e) ∧ main_run env doc = doc := by
  refine ⟨fun tables h => get_tables_as_lines_error_of_unknown h, ?_⟩
  intro env doc urls url hurls hmem hng
  have hmain : ∀ e, generate_readme_text env doc = .error e → main_run env doc = doc :=
    fun e h => main_run_error_eq h
  have hgen : ∃ e, generate_readme_text env doc = .error e := by
    rw [generate_readme_text, hurls]
    have hmem' : url ∈ List.insertionSort (· ≤ ·) (urls.getD []) :=
      (List.perm_insertionSort _ _).mem_iff.mpr hmem
    have hne : (List.insertionSort (· ≤ ·) (urls.getD [])).isEmpty = false := by
      cases hc : List.insertionSort (· ≤ ·) (urls.getD []) with
      | nil => rw [hc] at hmem'; simp at hmem'
      | cons x xs => rfl
    simp only [hne, Bool.false_eq_true, if_false]
    cases htd : get_table_data env (List.insertionSort (· ≤ ·) (urls.getD [])) with
    | error e =>
      simp only [htd]
      exact ⟨e, rfl⟩
    | ok r =>
      obtain ⟨t, lg⟩ := r
      have hunk : UnknownRow.mk url ∈ t.unknown := by
        obtain ⟨unknown, repos, haux, ht⟩ := get_table_data_inv htd
        rw [ht]
        exact aux_unknown_mem haux url hmem' hng
      have hne2 : t.unknown ≠ [] := List.ne_nil_of_mem hunk
      have hempty : t.is_empty = false := by
        unfold Tables.is_empty
        have hu : t.unknown.isEmpty = false := by
          cases hc : t.unknown with
          | nil => exact absurd hc hne2
          | cons x xs => rfl
        rw [hu]
        simp
      obtain ⟨e, he⟩ := get_tables_as_lines_error_of_unknown hne2
      simp only [htd, hempty, Bool.false_eq_true, if_false, he]
      exact ⟨e, rfl⟩
  obtain ⟨e, he⟩ := hgen
  exact ⟨⟨e, he⟩, hmain e he⟩

/-- Witness for C7: serialization errors on a concrete table set with an
unknown entry, and the concrete run on `docB` aborts without writing. -/
theorem c7_witness :
    (∃ e, get_tables_as_lines ⟨[], [⟨"https://example.com/not-github"⟩]⟩ = .error e) ∧
    (∃ e, generate_readme_text envA docB = .error e) ∧ main_run envA docB = docB := by
  have h2 := (c7_unknown_entries_abort_run).2 envA docB
    (some ["https://example.com/not-github", "https://github.com/foo/bar"])
    "https://example.com/not-github" (by decide) (by decide) (by decide)
  exact ⟨(c7_unknown_entries_abort_run).1 _ (by decide), h2.1, h2.2⟩


/-! ## C10: deterministic table serialization -/

theorem insertionSort_string_eq_of_perm {l₁ l₂ : List String} (h : l₁.Perm l₂) :
    List.insertionSort (· ≤ ·) l₁ = List.insertionSort (· ≤ ·) l₂ :=
  List.eq_of_perm_of_sorted
    ((List.perm_insertionSort _ _).trans (h.trans (List.perm_insertionSort _ _).symm))
    (List.sorted_insertionSort _ _) (List.sorted_insertionSort _ _)

theorem map_normTable_orderedInsert (a : String × List GitHubRow)
    (l : List (String × List GitHubRow)) :
    (List.orderedInsert tableLe a l).map normTable
      = List.orderedInsert normLe (normTable a) (l.map normTable) := by
  induction l with
  | nil => rfl
  | cons b t ih =>
    by_cases h : tableLe a b
    · have h' : normLe (normTable a) (normTable b) := h
      simp only [List.orderedInsert, if_pos h, if_pos h', List.map_cons]
    · have h' : ¬ normLe (normTable a) (normTable b) := h
      simp only [List.orderedInsert, if_neg h, if_neg h', List.map_cons, ih]

theorem map_normTable_insertionSort (l : List (String × List GitHubRow)) :
    (List.insertionSort tableLe l).map normTable
      = List.insertionSort normLe (l.map normTable) := by
  induction l with
  | nil => rfl
  | cons a t ih =>
    simp only [List.insertionSort, List.map_cons, map_normTable_orderedInsert, ih]

theorem render_tables_loop_eq_norm (l : List (String × List GitHubRow)) :
    render_tables_loop l = norm_tables_loop (l.map normTable) := by
  induction l with
  | nil => rfl
  | cons e rest ih =>
    obtain ⟨name, rows⟩ := e
    cases rows with
    | nil =>
      show render_tables_loop ((name, []) :: rest) = _
      rfl
    | cons r rs =>
      have hne : List.insertionSort (· ≤ ·) ((r :: rs).map serialize_github_row) ≠ [] := by
        intro hcontra
        have hlen := (List.perm_insertionSort (· ≤ ·)
          ((r :: rs).map serialize_github_row)).length_eq
        rw [hcontra] at hlen
        simp at hlen
      cases hs : List.insertionSort (· ≤ ·) ((r :: rs).map serialize_github_row) with
      | nil => exact absurd hs hne
      | cons s ss =>
        have hser : serialize_github_table (r :: rs)
            = some (joinSep "\n" (tableHeaderRows ++ (s :: ss))) := by
          rw [← hs]
          rfl
        have hmap : ((name, r :: rs) :: rest).map normTable
            = (name, s :: ss) :: rest.map normTable := by
          rw [List.map_cons]
          show (name, List.insertionSort _ _) :: _ = _
          rw [hs]
        rw [hmap]
        simp only [render_tables_loop, hser, norm_tables_loop, ih]

theorem lookup_eq_none_of_not_mem {β : Type} {l : List (String × β)} {k : String}
    (h : k ∉ l.map Prod.fst) : l.lookup k = none := by
  induction l with
  | nil => rfl
  | cons e t ih =>
    obtain ⟨k', v⟩ := e
    have hk : k ≠ k' := fun hc => h (by simp [hc])
    have hbeq : (k == k') = false := beq_eq_false_iff_ne.mpr hk
    simp only [List.lookup, hbeq]
    exact ih fun hm => h (by simp [hm])

theorem lookup_cons_self {β : Type} (k : String) (v : β) (t : List (String × β)) :
    ((k, v) :: t).lookup k = some v := by
  simp [List.lookup]

theorem lookup_split {β : Type} :
    ∀ {l : List (String × β)} {k : String} {v : β}, l.lookup k = some v →
      ∃ p q, l = p ++ (k, v) :: q ∧ k ∉ p.map Prod.fst := by
  intro l
  induction l with
  | nil => intro k v h; cases h
  | cons e t ih =>
    intro k v h
    obtain ⟨k', v'⟩ := e
    by_cases hk : k = k'
    · subst hk
      have hv : v' = v := by
        rw [lookup_cons_self] at h
        injection h
      subst hv
      exact ⟨[], t, rfl, by simp⟩
    · have hbeq : (k == k') = false := beq_eq_false_iff_ne.mpr hk
      simp only [List.lookup, hbeq] at h
      obtain ⟨p, q, rfl, hnp⟩ := ih h
      refine ⟨(k', v') :: p, q, rfl, ?_⟩
      intro hm
      rcases List.mem_cons.mp hm with h1 | h2
      · exact hk h1
      · exact hnp h2

theorem lookup_append_ne {β : Type} {k k' : String} (hne : k' ≠ k) (v : β) :
    ∀ (p q : List (String × β)), (p ++ (k, v) :: q).lookup k' = (p ++ q).lookup k' := by
  intro p
  induction p with
  | nil =>
    intro q
    simp only [List.nil_append, List.lookup, beq_eq_false_iff_ne.mpr hne]
  | cons e t ih =>
    intro q
    obtain ⟨a, b⟩ := e
    simp only [List.cons_append, List.lookup]
    cases hbeq : (k' == a) with
    | true => rfl
    | false => exact ih q

theorem assoc_perm_of_lookup_eq {β : Type} :
    ∀ {l₁ l₂ : List (String × β)},
      (l₁.map Prod.fst).Nodup → (l₂.map Prod.fst).Nodup →
      (∀ k, l₁.lookup k = l₂.lookup k) → l₁.Perm l₂ := by
  intro l₁
  induction l₁ with
  | nil =>
    intro l₂ _ _ hlook
    cases l₂ with
    | nil => exact List.Perm.refl []
    | cons e t =>
      obtain ⟨k, v⟩ := e
      have hcontra := hlook k
      rw [lookup_cons_self] at hcontra
      cases hcontra
  | cons e t₁ ih =>
    intro l₂ hnd₁ hnd₂ hlook
    obtain ⟨k, v⟩ := e
    have hlk : l₂.lookup k = some v := by
      rw [← hlook k]
      exact lookup_cons_self k v t₁
    obtain ⟨p, q, rfl, _hnp⟩ := lookup_split hlk
    have hmid : (p ++ (k, v) :: q).Perm ((k, v) :: (p ++ q)) := List.perm_middle
    have hk_t₁ : k ∉ t₁.map Prod.fst := by
      simp only [List.map_cons, List.nodup_cons] at hnd₁
      exact hnd₁.1
    have hndt₁ : (t₁.map Prod.fst).Nodup := by
      simp only [List.map_cons, List.nodup_cons] at hnd₁
      exact hnd₁.2
    have hkeys₂ : ((p ++ (k, v) :: q).map Prod.fst).Perm (k :: (p ++ q).map Prod.fst) := by
      simp only [List.map_append, List.map_cons]
      exact List.perm_middle
    have hnd₂' := hkeys₂.nodup hnd₂
    rw [List.nodup_cons] at hnd₂'
    obtain ⟨hkpq, hndpq⟩ := hnd₂'
    rw [List.map_append] at hkpq hndpq
    have hlook' : ∀ k', t₁.lookup k' = (p ++ q).lookup k' := by
      intro k'
      by_cases hk' : k' = k
      · subst hk'
        rw [lookup_eq_none_of_not_mem hk_t₁,
          lookup_eq_none_of_not_mem (by rw [List.map_append]; exact hkpq)]
      · have h1 : ((k, v) :: t₁).lookup k' = t₁.lookup k' := by
          simp only [List.lookup, beq_eq_false_iff_ne.mpr hk']
        rw [← h1, hlook k', lookup_append_ne hk' v p q]
    have hperm := ih hndt₁ (by rw [List.map_append]; exact hndpq) hlook'
    exact (hperm.cons (k, v)).trans hmid.symm

theorem perm_eq_of_map_fst_eq :
    ∀ {l₁ l₂ : List (String × List String)},
      l₁.Perm l₂ → l₁.map Prod.fst = l₂.map Prod.fst →
      (l₁.map Prod.fst).Nodup → l₁ = l₂ := by
  intro l₁
  induction l₁ with
  | nil =>
    intro l₂ h _ _
    rw [List.Perm.eq_nil h.symm]
  | cons a t₁ ih =>
    intro l₂ h hmap hnd
    cases l₂ with
    | nil => simp at hmap
    | cons b t₂ =>
      simp only [List.map_cons, List.cons.injEq] at hmap
      obtain ⟨hab, hmap'⟩ := hmap
      have hmem : a ∈ b :: t₂ := h.mem_iff.mp (List.mem_cons_self a t₁)
      rcases List.mem_cons.mp hmem with rfl | hmem'
      · have ht : t₁.Perm t₂ := h.cons_inv
        have hnd' : (t₁.map Prod.fst).Nodup := by
          simp only [List.map_cons, List.nodup_cons] at hnd
          exact hnd.2
        rw [ih ht hmap' hnd']
      · exfalso
        have hin2 : a.1 ∈ t₂.map Prod.fst := List.mem_map.mpr ⟨a, hmem', rfl⟩
        rw [← hmap'] at hin2
        have hnot : a.1 ∉ t₁.map Prod.fst := by
          simp only [List.map_cons, List.nodup_cons] at hnd
          exact hnd.1
        exact hnot hin2

theorem sorted_entries_eq {l₁ l₂ : List (String × List String)} (h : l₁.Perm l₂)
    (hs₁ : l₁.Pairwise normLe) (hs₂ : l₂.Pairwise normLe)
    (hnd : (l₁.map Prod.fst).Nodup) : l₁ = l₂ := by
  have hknd₂ : (l₂.map Prod.fst).Nodup := (h.map Prod.fst).nodup hnd
  have hks₁ : (l₁.map Prod.fst).Pairwise (· ≤ ·) := List.pairwise_map.mpr hs₁
  have hks₂ : (l₂.map Prod.fst).Pairwise (· ≤ ·) := List.pairwise_map.mpr hs₂
  haveI : IsAntisymm String (· < ·) := ⟨fun _ _ hab hba => absurd hba (lt_asymm hab)⟩
  have hlt₁ : (l₁.map Prod.fst).Pairwise (· < ·) :=
    (hks₁.and hnd).imp fun hab => lt_of_le_of_ne hab.1 hab.2
  have hlt₂ : (l₂.map Prod.fst).Pairwise (· < ·) :=
    (hks₂.and hknd₂).imp fun hab => lt_of_le_of_ne hab.1 hab.2
  have hkeq : l₁.map Prod.fst = l₂.map Prod.fst :=
    List.eq_of_perm_of_sorted (h.map Prod.fst) hlt₁ hlt₂
  exact perm_eq_of_map_fst_eq h hkeq hnd

theorem lookup_map_normTable (l : List (String × List GitHubRow)) (k : String) :
    (l.map normTable).lookup k
      = (l.lookup k).map
          (fun rows => List.insertionSort (· ≤ ·) (rows.map serialize_github_row)) := by
  induction l with
  | nil => rfl
  | cons e t ih =>
    obtain ⟨k', rows⟩ := e
    show ((k', List.insertionSort (· ≤ ·) (rows.map serialize_github_row))
        :: t.map normTable).lookup k = _
    cases hbeq : (k == k') with
    | true =>
      simp only [List.lookup, hbeq]
      rfl
    | false =>
      simp only [List.lookup, hbeq]
      exact ih

/-- C10.  The serializer emits the category tables in lexicographic order of
category label, sorting each table's row lines lexicographically by rendered
text, so two table sets with the same categories (pairwise-distinct labels,
as produced from a Python dict), the same rows per category up to order, and
the same unknown list serialize identically. -/
theorem c10_serializer_deterministic (t₁ t₂ : Tables)
    (h₁ : (t₁.github.map Prod.fst).Nodup) (h₂ : (t₂.github.map Prod.fst).Nodup)
    (hrows : ∀ k, optPerm (t₁.github.lookup k) (t₂.github.lookup k))
    (hunk : t₁.unknown = t₂.unknown) :
    get_tables_as_lines t₁ = get_tables_as_lines t₂ ∧
    List.Sorted (· ≤ ·) ((List.insertionSort tableLe t₁.github).map Prod.fst) ∧
    ∀ rows : List GitHubRow, rows ≠ [] →
      ∃ sortedRows, sortedRows.Perm (rows.map serialize_github_row) ∧
        List.Sorted (· ≤ ·) sortedRows ∧
        serialize_github_table rows = some (joinSep "\n" (tableHeaderRows ++ sortedRows)) := by
  refine ⟨?_, ?_, ?_⟩
  · have hlookeq : ∀ k, (t₁.github.map normTable).lookup k
        = (t₂.github.map normTable).lookup k := by
      intro k
      rw [lookup_map_normTable, lookup_map_normTable]
      have h := hrows k
      cases h₁' : t₁.github.lookup k with
      | none =>
        cases h₂' : t₂.github.lookup k with
        | none => rfl
        | some r₂ =>
          rw [h₁', h₂'] at h
          exact absurd h (fun hc => hc)
      | some r₁ =>
        cases h₂' : t₂.github.lookup k with
        | none =>
          rw [h₁', h₂'] at h
          exact absurd h (fun hc => hc)
        | some r₂ =>
          rw [h₁', h₂'] at h
          have hperm : r₁.Perm r₂ := h
          simp only [Option.map_some']
          rw [insertionSort_string_eq_of_perm (hperm.map serialize_github_row)]
    have hkeys : ∀ (l : List (String × List GitHubRow)),
        (l.map normTable).map Prod.fst = l.map Prod.fst := by
      intro l
      rw [List.map_map]
      rfl
    have hnd₁ : ((t₁.github.map normTable).map Prod.fst).Nodup := by
      rw [hkeys]
      exact h₁
    have hnd₂ : ((t₂.github.map normTable).map Prod.fst).Nodup := by
      rw [hkeys]
      exact h₂
    have hpermN : (t₁.github.map normTable).Perm (t₂.github.map normTable) :=
      assoc_perm_of_lookup_eq hnd₁ hnd₂ hlookeq
    have hSeq : List.insertionSort normLe (t₁.github.map normTable)
        = List.insertionSort normLe (t₂.github.map normTable) := by
      refine sorted_entries_eq ?_ (List.sorted_insertionSort _ _)
        (List.sorted_insertionSort _ _) ?_
      · exact (List.perm_insertionSort _ _).trans
          (hpermN.trans (List.perm_insertionSort _ _).symm)
      · have hp : ((List.insertionSort normLe (t₁.github.map normTable)).map Prod.fst).Perm
            ((t₁.github.map normTable).map Prod.fst) :=
          (List.perm_insertionSort _ _).map _
        exact hp.symm.nodup hnd₁
    rw [get_tables_as_lines, get_tables_as_lines, render_tables_loop_eq_norm,
      render_tables_loop_eq_norm, map_normTable_insertionSort, map_normTable_insertionSort,
      hSeq, hunk]
  · exact List.pairwise_map.mpr (List.sorted_insertionSort tableLe t₁.github)
  · intro rows hne
    cases rows with
    | nil => exact absurd rfl hne
    | cons r rs =>
      exact ⟨List.insertionSort (· ≤ ·) ((r :: rs).map serialize_github_row),
        List.perm_insertionSort _ _, List.sorted_insertionSort _ _, rfl⟩

/-- Witness for C10: two concrete table sets with permuted entries and rows
serialize identically. -/
theorem c10_witness :
    get_tables_as_lines tablesX = get_tables_as_lines tablesY ∧
    List.Sorted (· ≤ ·) ((List.insertionSort tableLe tablesX.github).map Prod.fst) := by
  have h := c10_serializer_deterministic tablesX tablesY (by decide) (by decide) ?_ rfl
  · exact ⟨h.1, h.2.1⟩
  · intro k
    by_cases ha : k = "auto"
    · subst ha
      decide
    · by_cases hb : k = "chat"
      · subst hb
        decide
      · have hba : (k == "auto") = false := beq_eq_false_iff_ne.mpr ha
        have hbb : (k == "chat") = false := beq_eq_false_iff_ne.mpr hb
        show optPerm (tablesX.github.lookup k) (tablesY.github.lookup k)
        simp only [tablesX, tablesY, List.lookup, hba, hbb]
        trivial


/-! ## C1: round-trip regeneration.  First: every parsed reference is a
well-formed (stripped, single-line, non-empty) string. -/

theorem str_ext {s t : String} (h : s.data = t.data) : s = t := by
  cases s
  cases t
  cases h
  rfl

theorem str_assoc (a b c : String) : (a ++ b) ++ c = a ++ (b ++ c) :=
  str_ext (by simp [data_append, List.append_assoc])

theorem noNL_append {a b : String} (ha : noNL a) (hb : noNL b) : noNL (a ++ b) := by
  unfold noNL at *
  rw [data_append]
  intro hm
  rcases List.mem_append.mp hm with h | h
  · exact ha h
  · exact hb h

theorem trim_prefix_decomp (l : List Char) :
    ∃ z, l.dropWhile pyIsSpace = trimChars l ++ z := by
  have h1 : (l.dropWhile pyIsSpace).reverse
      = (l.dropWhile pyIsSpace).reverse.takeWhile pyIsSpace
        ++ (l.dropWhile pyIsSpace).reverse.dropWhile pyIsSpace :=
    (List.takeWhile_append_dropWhile pyIsSpace ((l.dropWhile pyIsSpace).reverse)).symm
  have h2 := congrArg List.reverse h1
  rw [List.reverse_reverse, List.reverse_append] at h2
  exact ⟨_, h2⟩

theorem trim_head_not_ws {l : List Char} {c : Char} {cs : List Char}
    (h : trimChars l = c :: cs) : pyIsSpace c = false := by
  obtain ⟨z, hz⟩ := trim_prefix_decomp l
  rw [h, List.cons_append] at hz
  exact dropWhile_head_not hz

theorem trim_getLast_not_ws {l : List Char} {d : Char}
    (h : (trimChars l).getLast? = some d) : pyIsSpace d = false := by
  unfold trimChars at h
  rw [List.getLast?_reverse] at h
  cases hx : (l.dropWhile pyIsSpace).reverse.dropWhile pyIsSpace with
  | nil => rw [hx] at h; cases h
  | cons x xs =>
    rw [hx] at h
    simp only [List.head?_cons, Option.some.injEq] at h
    rw [← h]
    exact dropWhile_head_not hx

theorem trim_subset {l : List Char} {x : Char} (h : x ∈ trimChars l) : x ∈ l := by
  unfold trimChars at h
  rw [List.mem_reverse] at h
  have h2 := (List.dropWhile_sublist _).subset h
  rw [List.mem_reverse] at h2
  exact (List.dropWhile_sublist _).subset h2

theorem validRef_of_bulletMatch {line t : String} (hnl : noNL line)
    (hm : bulletMatch (pyStrip line) = some t) : validRef t = true := by
  unfold bulletMatch at hm
  have hdata : (pyStrip line).data = trimChars line.data := rfl
  rw [hdata] at hm
  cases htr : trimChars line.data with
  | nil => simp [htr] at hm
  | cons c cs =>
    have hc : pyIsSpace c = false := trim_head_not_ws htr
    have hdw : (c :: cs).dropWhile pyIsSpace = c :: cs :=
      List.dropWhile_cons_of_neg (by simp [hc])
    rw [htr, hdw] at hm
    have hm' : (if c = '-' then bulletTail cs else none) = some t := hm
    by_cases hcdash : c = '-'
    · rw [if_pos hcdash] at hm'
      subst hcdash
      unfold bulletTail at hm'
      cases hdw2 : cs.dropWhile pyIsSpace with
      | nil =>
        rw [hdw2] at hm'
        cases hcs : cs with
        | nil => simp [hcs] at hm'
        | cons e es =>
          exfalso
          have hall : ∀ x ∈ cs, pyIsSpace x = true := by
            intro x hx
            have hx2 := List.dropWhile_eq_nil_iff.mp hdw2 x hx
            simpa using hx2
          have hlast : ('-' :: cs).getLast? = cs.getLast? := by
            show ((['-'] ++ cs)).getLast? = _
            exact List.getLast?_append_of_ne_nil _ (by simp [hcs])
          cases hgl : cs.getLast? with
          | none =>
            rw [hcs] at hgl
            rw [List.getLast?_eq_none_iff] at hgl
            simp at hgl
          | some d =>
            have hdws : pyIsSpace d = false :=
              trim_getLast_not_ws (l := line.data) (by rw [htr, hlast, hgl])
            have hdmem : d ∈ cs := by
              rw [hcs] at hgl ⊢
              have hgleq := List.getLast?_eq_getLast (e :: es) (by simp)
              rw [hgleq] at hgl
              injection hgl with hd'
              rw [← hd']
              exact List.getLast_mem _
            rw [hall d hdmem] at hdws
            cases hdws
      | cons d ds =>
        rw [hdw2] at hm'
        have ht : t = String.mk (d :: ds) := by
          have h0 : some (String.mk (d :: ds)) = some t := hm'
          injection h0 with h0'
          exact h0'.symm
        subst ht
        have hdns : pyIsSpace d = false := dropWhile_head_not hdw2
        have hsub : ∀ x ∈ d :: ds, x ∈ line.data := by
          intro x hx
          have h1 : x ∈ cs := (List.dropWhile_sublist _).subset (hdw2 ▸ hx)
          have h2 : x ∈ trimChars line.data := by
            rw [htr]
            exact List.mem_cons_of_mem _ h1
          exact trim_subset h2
        have hnonl : '\n' ∉ d :: ds := fun hmem => hnl (hsub _ hmem)
        have hcs_ne : cs ≠ [] := by
          intro hc0
          rw [hc0] at hdw2
          cases hdw2
        have hlastns : ∀ e, (d :: ds).getLast? = some e → pyIsSpace e = false := by
          intro e he
          have hsplit : cs = cs.takeWhile pyIsSpace ++ (d :: ds) := by
            rw [← hdw2]
            exact (List.takeWhile_append_dropWhile pyIsSpace cs).symm
          have h1 : cs.getLast? = (d :: ds).getLast? := by
            conv_lhs => rw [hsplit]
            exact List.getLast?_append_of_ne_nil _ (by simp)
          have h2 : ('-' :: cs).getLast? = cs.getLast? := by
            show ((['-'] ++ cs)).getLast? = _
            exact List.getLast?_append_of_ne_nil _ hcs_ne
          exact trim_getLast_not_ws (l := line.data) (by rw [htr, h2, h1, he])
        show validRef (String.mk (d :: ds)) = true
        unfold validRef
        cases hgl : (d :: ds).getLast? with
        | none =>
          rw [List.getLast?_eq_none_iff] at hgl
          simp at hgl
        | some e =>
          have he := hlastns e hgl
          simp [hdns, he, hnonl, hgl]
    · rw [if_neg hcdash] at hm'
      cases hm'

theorem parseBullets_valid {ls : List String} (hnl : ∀ l ∈ ls, noNL l) :
    ∀ {out}, parseBullets ls = .ok out → ∀ s ∈ out, validRef s = true := by
  induction ls with
  | nil =>
    intro out h s hs
    cases h
    simp at hs
  | cons line rest ih =>
    intro out h s hs
    rw [parseBullets] at h
    by_cases hskip : pyStrip line = "" ∨ pyStrip line = "```"
    · rw [if_pos hskip] at h
      exact ih (fun l hl => hnl l (List.mem_cons_of_mem _ hl)) h s hs
    · rw [if_neg hskip] at h
      cases hm : bulletMatch (pyStrip line) with
      | none => rw [hm] at h; cases h
      | some t =>
        rw [hm] at h
        cases hrest : parseBullets rest with
        | error e => rw [hrest] at h; cases h
        | ok out' =>
          rw [hrest] at h
          have hout : t :: out' = out := by
            have h' : (Except.ok (t :: out') : Except String (List String)) = .ok out := h
            injection h'
          rw [← hout] at hs
          rcases List.mem_cons.mp hs with rfl | hmem
          · exact validRef_of_bulletMatch (hnl line (List.mem_cons_self _ _)) hm
          · exact ih (fun l hl => hnl l (List.mem_cons_of_mem _ hl)) hrest s hmem

theorem mem_of_locateFenced : ∀ {ls content : List String},
    locateFenced ls = .ok (some content) → ∀ l ∈ content, l ∈ ls := by
  intro ls
  induction ls with
  | nil =>
    intro content h
    simp [locateFenced] at h
  | cons a tail ih =>
    intro content h l hl
    cases tail with
    | nil => simp [locateFenced] at h
    | cons b rest =>
      rw [locateFenced] at h
      by_cases hcond : a = "<details>" ∧ b = "<summary>All Plugins</summary>"
      · rw [if_pos hcond] at h
        cases hdw : rest.dropWhile (· != "```") with
        | nil => rw [hdw] at h; cases h
        | cons f afterFence =>
          rw [hdw] at h
          have hcontent : afterFence.takeWhile (· != "```") = content := by
            have h' : (Except.ok (some (afterFence.takeWhile (· != "```")))
                : Except String (Option (List String))) = .ok (some content) := h
            injection h' with h''
            injection h''
          rw [← hcontent] at hl
          have h1 : l ∈ afterFence := (List.takeWhile_sublist _).subset hl
          have h2 : l ∈ rest := by
            have h3 : l ∈ rest.dropWhile (· != "```") := by
              rw [hdw]
              exact List.mem_cons_of_mem f h1
            exact (List.dropWhile_sublist _).subset h3
          exact List.mem_cons_of_mem a (List.mem_cons_of_mem b h2)
      · rw [if_neg hcond] at h
        exact List.mem_cons_of_mem a (ih h l hl)

theorem get_plugin_urls_valid {doc : String} {urls : Option (List String)}
    (h : get_plugin_urls doc = .ok urls) : ∀ s ∈ urls.getD [], validRef s = true := by
  unfold get_plugin_urls at h
  cases hloc : locateFenced (splitLines doc) with
  | error e => simp [hloc] at h
  | ok o =>
    cases o with
    | none =>
      simp only [hloc] at h
      have hu : urls = none := by
        have h' : (Except.ok (none : Option (List String)) : Except String _) = .ok urls := h
        injection h' with h''
        exact h''.symm
      subst hu
      intro s hs
      simp at hs
    | some content =>
      simp only [hloc] at h
      by_cases hall : content.all (fun l => pyStrip l == "") = true
      · rw [if_pos hall] at h
        have hu : urls = none := by
          have h' : (Except.ok (none : Option (List String)) : Except String _) = .ok urls := h
          injection h' with h''
          exact h''.symm
        subst hu
        intro s hs
        simp at hs
      · rw [if_neg hall] at h
        cases hp : parseBullets content with
        | error e => rw [hp] at h; cases h
        | ok out =>
          rw [hp] at h
          have hu : urls = some out := by
            have h' : (Except.ok (some out) : Except String (Option (List String)))
                = .ok urls := h
            injection h' with h''
            exact h''.symm
          subst hu
          intro s hs
          have hnl : ∀ l ∈ content, noNL l := fun l hl =>
            noNL_of_mem_splitLines (mem_of_locateFenced hloc l hl)
          exact parseBullets_valid hnl hp s hs


/-! ### The shape of a generated document -/

theorem takeWhile_append_all {p : String → Bool} {xs : List String} {y : String}
    (ys : List String) (hxs : ∀ x ∈ xs, p x = true) (hy : p y = false) :
    (xs ++ y :: ys).takeWhile p = xs := by
  induction xs with
  | nil => simp [List.takeWhile_cons, hy]
  | cons x xs' ih =>
    simp [List.takeWhile_cons, hxs x (List.mem_cons_self x xs'),
      ih fun z hz => hxs z (List.mem_cons_of_mem x hz)]

theorem locateFenced_generated (line1 : String) (bullets : List String)
    (hb : ∀ l ∈ bullets, (l != "```") = true) (tail : List String) :
    locateFenced ("This is a list of Neovim AI plugins." :: line1 :: "" :: "<details>"
      :: "<summary>All Plugins</summary>" :: "" :: "```" :: (bullets ++ "```" :: tail))
      = .ok (some bullets) := by
  rw [locateFenced, if_neg (fun hc => absurd hc.1 (by decide))]
  rw [locateFenced, if_neg (fun hc => absurd hc.2 (by decide))]
  rw [locateFenced, if_neg (fun hc => absurd hc.1 (by decide))]
  rw [locateFenced, if_pos ⟨rfl, rfl⟩]
  rw [List.dropWhile_cons_of_pos (by decide), List.dropWhile_cons_of_neg (by decide)]
  show Except.ok (some (List.takeWhile (fun x => x != "```") (bullets ++ "```" :: tail)))
      = Except.ok (some bullets)
  rw [takeWhile_append_all tail hb (by decide)]

theorem splitLines_generated (today : String) (plugins : List String) (rest : String)
    (hT : noNL today)
    (hbul : ∀ l ∈ List.insertionSort (· ≤ ·) (plugins.map (fun n => "- " ++ n)), noNL l)
    (hbne : List.insertionSort (· ≤ ·) (plugins.map (fun n => "- " ++ n)) ≠ []) :
    splitLines (get_reader_header today plugins ++ rest)
      = "This is a list of Neovim AI plugins."
        :: ("This page is auto-generated and was last updated on \"" ++ today ++ "\"")
        :: "" :: "<details>" :: "<summary>All Plugins</summary>" :: "" :: "```"
        :: (List.insertionSort (· ≤ ·) (plugins.map (fun n => "- " ++ n))
            ++ "```" :: "</details>" :: splitLines rest) := by
  have hshape : get_reader_header today plugins ++ rest
      = "This is a list of Neovim AI plugins." ++ "\n"
        ++ (("This page is auto-generated and was last updated on \"" ++ today ++ "\"") ++ "\n"
        ++ ("" ++ "\n"
        ++ ("<details>" ++ "\n"
        ++ ("<summary>All Plugins</summary>" ++ "\n"
        ++ ("" ++ "\n"
        ++ ("```" ++ "\n"
        ++ (joinSep "\n" (List.insertionSort (· ≤ ·) (plugins.map (fun n => "- " ++ n))) ++ "\n"
        ++ ("```" ++ "\n"
        ++ ("</details>" ++ "\n"
        ++ rest))))))))) := by
    apply str_ext
    simp [get_reader_header, data_append, List.append_assoc]
  rw [hshape]
  rw [splitLines_append_line _ (by decide)]
  rw [splitLines_append_line _ (noNL_append (noNL_append (by decide) hT) (by decide))]
  rw [splitLines_append_line _ (by decide)]
  rw [splitLines_append_line _ (by decide)]
  rw [splitLines_append_line _ (by decide)]
  rw [splitLines_append_line _ (by decide)]
  rw [splitLines_append_line _ (by decide)]
  rw [splitLines_join_append _ hbul hbne]
  rw [splitLines_append_line _ (by decide)]
  rw [splitLines_append_line _ (by decide)]

theorem get_plugin_urls_generated (today : String) (plugins : List String) (rest : String)
    (hT : noNL today) (hne : plugins ≠ []) (hval : ∀ p ∈ plugins, validRef p = true) :
    get_plugin_urls (get_reader_header today plugins ++ rest)
      = .ok (some ((List.insertionSort (· ≤ ·) (plugins.map (fun n => "- " ++ n))).map
          (fun l => String.mk (l.data.drop 2)))) := by
  have hmem : ∀ l ∈ List.insertionSort (· ≤ ·) (plugins.map (fun n => "- " ++ n)),
      ∃ n, validRef n = true ∧ l = "- " ++ n := by
    intro l hl
    have hl2 : l ∈ plugins.map (fun n => "- " ++ n) :=
      (List.perm_insertionSort _ _).mem_iff.mp hl
    obtain ⟨n, hn, rfl⟩ := List.mem_map.mp hl2
    exact ⟨n, hval n hn, rfl⟩
  have hnoNL : ∀ l ∈ List.insertionSort (· ≤ ·) (plugins.map (fun n => "- " ++ n)), noNL l := by
    intro l hl
    obtain ⟨n, hn, rfl⟩ := hmem l hl
    exact bullet_noNL hn
  have hbne : List.insertionSort (· ≤ ·) (plugins.map (fun n => "- " ++ n)) ≠ [] := by
    intro hcontra
    have hlen := (List.perm_insertionSort (· ≤ ·) (plugins.map (fun n => "- " ++ n))).length_eq
    rw [hcontra] at hlen
    cases hp : plugins with
    | nil => exact hne hp
    | cons p ps => rw [hp] at hlen; simp at hlen
  have hfence : ∀ l ∈ List.insertionSort (· ≤ ·) (plugins.map (fun n => "- " ++ n)),
      (l != "```") = true := by
    intro l hl
    obtain ⟨n, _hn, rfl⟩ := hmem l hl
    simp [bullet_ne_fence n]
  have hstep : get_plugin_urls (get_reader_header today plugins ++ rest)
      = (if (List.insertionSort (· ≤ ·) (plugins.map (fun n => "- " ++ n))).all
            (fun l => pyStrip l == "") = true
         then .ok none
         else (parseBullets
            (List.insertionSort (· ≤ ·) (plugins.map (fun n => "- " ++ n)))).map some) := by
    unfold get_plugin_urls
    rw [splitLines_generated today plugins rest hT hnoNL hbne,
      locateFenced_generated _ _ hfence _]
  have hallfalse : ¬((List.insertionSort (· ≤ ·) (plugins.map (fun n => "- " ++ n))).all
      (fun l => pyStrip l == "") = true) := by
    intro hcontra
    cases hbl : List.insertionSort (· ≤ ·) (plugins.map (fun n => "- " ++ n)) with
    | nil => exact hbne hbl
    | cons b bs =>
      rw [hbl] at hcontra
      have hb := List.all_eq_true.mp hcontra b (List.mem_cons_self b bs)
      obtain ⟨n, hn, rfl⟩ := hmem b (by rw [hbl]; exact List.mem_cons_self b bs)
      rw [pyStrip_bullet hn] at hb
      exact bullet_ne_empty n (eq_of_beq hb)
  rw [hstep, if_neg hallfalse, parseBullets_bullet_lines hmem]
  rfl

/-- The one-step unfolding of `generate_readme_text` after the embedded list
has been parsed. -/
theorem generate_unfold_ok {env : Env} {doc : String} {urls : Option (List String)}
    (h : get_plugin_urls doc = .ok urls) :
    generate_readme_text env doc =
      (if (List.insertionSort (· ≤ ·) (urls.getD [])).isEmpty = true
       then .error "Path has no parseable plugins list."
       else
        match get_table_data env (List.insertionSort (· ≤ ·) (urls.getD [])) with
        | .error e => .error e
        | .ok (table_data, _log) =>
          if table_data.is_empty = true
          then .ok (get_reader_header env.today (List.insertionSort (· ≤ ·) (urls.getD []))
              ++ "" ++ FOOTER)
          else
            match get_tables_as_lines table_data with
            | .error e => .error e
            | .ok tables =>
              .ok (get_reader_header env.today (List.insertionSort (· ≤ ·) (urls.getD []))
                ++ ("\n\n" ++ joinSep "\n" tables) ++ FOOTER)) := by
  unfold generate_readme_text
  rw [h]

/-- C1.  Regenerating from a document produced by a prior regeneration, with
the same environment (per-identity metadata, documentation text, and the
rendered date), yields byte-identical output: the second run reproduces the
first run's document exactly. -/
theorem c1_regeneration_round_trip (env : Env) (doc₀ doc₁ : String)
    (hT : noNL env.today)
    (h : generate_readme_text env doc₀ = .ok doc₁) :
    generate_readme_text env doc₁ = .ok doc₁ := by
  cases hurls : get_plugin_urls doc₀ with
  | error e =>
    have herr : generate_readme_text env doc₀ = .error e := by
      unfold generate_readme_text
      rw [hurls]
    rw [herr] at h
    cases h
  | ok urls =>
    rw [generate_unfold_ok hurls] at h
    by_cases hemp : (List.insertionSort (· ≤ ·) (urls.getD [])).isEmpty = true
    · rw [if_pos hemp] at h
      cases h
    · rw [if_neg hemp] at h
      have hval : ∀ p ∈ List.insertionSort (· ≤ ·) (urls.getD []), validRef p = true :=
        fun p hp => get_plugin_urls_valid hurls p ((List.perm_insertionSort _ _).mem_iff.mp hp)
      have hpne : List.insertionSort (· ≤ ·) (urls.getD []) ≠ [] := by
        intro hc
        rw [hc] at hemp
        exact hemp rfl
      cases htd : get_table_data env (List.insertionSort (· ≤ ·) (urls.getD [])) with
      | error e =>
        rw [htd] at h
        cases (show (Except.error e : Except String String) = .ok doc₁ from h)
      | ok r =>
        obtain ⟨td, lg⟩ := r
        simp only [htd] at h
        have hdoc₁ : ∃ restS,
            doc₁ = get_reader_header env.today (List.insertionSort (· ≤ ·) (urls.getD []))
              ++ restS := by
          by_cases hte : td.is_empty = true
          · rw [if_pos hte] at h
            have h' : get_reader_header env.today (List.insertionSort (· ≤ ·) (urls.getD []))
                ++ "" ++ FOOTER = doc₁ := by injection h
            exact ⟨"" ++ FOOTER, by rw [← h', str_assoc]⟩
          · rw [if_neg hte] at h
            cases hts : get_tables_as_lines td with
            | error e =>
              rw [hts] at h
              cases (show (Except.error e : Except String String) = .ok doc₁ from h)
            | ok tables =>
              simp only [hts] at h
              have h' : get_reader_header env.today (List.insertionSort (· ≤ ·) (urls.getD []))
                  ++ ("\n\n" ++ joinSep "\n" tables) ++ FOOTER = doc₁ := by injection h
              exact ⟨("\n\n" ++ joinSep "\n" tables) ++ FOOTER, by rw [← h', str_assoc]⟩
        obtain ⟨restS, hdoc₁⟩ := hdoc₁
        have hparse : get_plugin_urls doc₁
            = .ok (some ((List.insertionSort (· ≤ ·)
                ((List.insertionSort (· ≤ ·) (urls.getD [])).map (fun n => "- " ++ n))).map
                (fun l => String.mk (l.data.drop 2)))) := by
          rw [hdoc₁]
          exact get_plugin_urls_generated env.today _ restS hT hpne hval
        have hcperm : ((List.insertionSort (· ≤ ·)
            ((List.insertionSort (· ≤ ·) (urls.getD [])).map (fun n => "- " ++ n))).map
            (fun l => String.mk (l.data.drop 2))).Perm
              (List.insertionSort (· ≤ ·) (urls.getD [])) := by
          have h1 := (List.perm_insertionSort (· ≤ ·)
            ((List.insertionSort (· ≤ ·) (urls.getD [])).map (fun n => "- " ++ n))).map
            (fun l => String.mk (l.data.drop 2))
          rw [List.map_map] at h1
          have h2 : (List.insertionSort (· ≤ ·) (urls.getD [])).map
              ((fun l => String.mk (l.data.drop 2)) ∘ (fun n => "- " ++ n))
              = List.insertionSort (· ≤ ·) (urls.getD []) := by
            refine (List.map_congr_left ?_).trans (List.map_id _)
            intro a _
            rfl
          rw [h2] at h1
          exact h1
        have hsort2 : List.insertionSort (· ≤ ·)
            ((List.insertionSort (· ≤ ·)
              ((List.insertionSort (· ≤ ·) (urls.getD [])).map (fun n => "- " ++ n))).map
              (fun l => String.mk (l.data.drop 2)))
            = List.insertionSort (· ≤ ·) (urls.getD []) :=
          List.eq_of_perm_of_sorted ((List.perm_insertionSort _ _).trans hcperm)
            (List.sorted_insertionSort _ _) (List.sorted_insertionSort _ _)
        rw [generate_unfold_ok hparse]
        simp only [Option.getD_some]
        rw [hsort2, if_neg hemp, htd]
        exact h

/-- Witness for C1: a concrete successful run whose output regenerates to
itself. -/
theorem c1_witness :
    ∃ d₁, generate_readme_text envA docA = .ok d₁ ∧
      generate_readme_text envA d₁ = .ok d₁ := by
  cases hres : generate_readme_text envA docA with
  | error e =>
    have hsome : (generate_readme_text envA docA).isOk = true := by decide
    rw [hres] at hsome
    cases hsome
  | ok d₁ => exact ⟨d₁, rfl, c1_regeneration_round_trip envA docA d₁ (by decide) hres⟩


end GenReadme
